import Mathlib

/-!
Verification of the CeresDB WAL core against its specification.

The development shallowly embeds three components of the repository:

* `kv_encoder.rs` — the byte-exact key/value codec (log keys, common log
  keys, log values, meta keys, max-sequence meta values).  Byte buffers are
  modelled as `List Nat` with every element a byte value; `u64` fields are
  `Nat` values, constrained to `< 2 ^ 64` in the theorems that need it.
* `table_kv_impl/region.rs` — sequence-number allocation and batch writes
  of the ordered-KV region log store.  The `AtomicU64::fetch_add` of the
  source wraps modulo `2 ^ 64`, and the embedding keeps that wrap explicit.
* `message_queue_impl/region_meta.rs` — the per-region meta registry with
  its snapshot/delta recovery builder.  Sequence counters are `Nat` and
  queue offsets are `Int` (`i64` in the source); the `u64` additions of
  `next_sequence_num` wrap modulo `2 ^ 64` and the `i64` offset arithmetic
  wraps through `wrapI64`, matching release-mode Rust semantics.
-/

/-! ### Byte-buffer primitives

`u64be` is the big-endian byte image of a `u64` as produced by
`try_put_u64`; `readU8` / `readU64` consume from the front of a buffer the
way the `Buf::try_get_u8` / `try_get_u64` calls of the decoders do.
-/

/-- Big-endian byte image of a 64-bit unsigned integer (8 bytes). -/
def u64be (n : Nat) : List Nat :=
  [n / 2 ^ 56 % 256, n / 2 ^ 48 % 256, n / 2 ^ 40 % 256, n / 2 ^ 32 % 256,
   n / 2 ^ 24 % 256, n / 2 ^ 16 % 256, n / 2 ^ 8 % 256, n % 256]

/-- Read one byte from the front of a buffer (`try_get_u8`). -/
def readU8 : List Nat → Option (Nat × List Nat)
  | [] => none
  | b :: rest => some (b, rest)

/-- Read a big-endian 64-bit unsigned integer from the front of a buffer
(`try_get_u64`). -/
def readU64 : List Nat → Option (Nat × List Nat)
  | b0 :: b1 :: b2 :: b3 :: b4 :: b5 :: b6 :: b7 :: rest =>
      some (b0 * 2 ^ 56 + b1 * 2 ^ 48 + b2 * 2 ^ 40 + b3 * 2 ^ 32 +
            b4 * 2 ^ 24 + b5 * 2 ^ 16 + b6 * 2 ^ 8 + b7, rest)
  | _ => none

/-- Value of a byte string read as one big-endian number. -/
def beVal : List Nat → Nat
  | [] => 0
  | b :: l => b * 256 ^ l.length + beVal l

theorem readU64_u64be (n : Nat) (h : n < 2 ^ 64) (l : List Nat) :
    readU64 (u64be n ++ l) = some (n, l) := by
  simp only [u64be, List.cons_append, List.nil_append, readU64, Option.some.injEq,
    Prod.mk.injEq]
  exact ⟨by omega, trivial⟩

theorem u64be_length (n : Nat) : (u64be n).length = 8 := rfl

theorem u64be_bytes_lt (n : Nat) : ∀ x ∈ u64be n, x < 256 := by
  intro x hx
  simp only [u64be, List.mem_cons, List.not_mem_nil, or_false] at hx
  rcases hx with h | h | h | h | h | h | h | h <;> subst h <;> omega

theorem beVal_append (a b : List Nat) :
    beVal (a ++ b) = beVal a * 256 ^ b.length + beVal b := by
  induction a with
  | nil => simp [beVal]
  | cons x xs ih =>
      simp only [List.cons_append, beVal, List.append_eq, List.length_append, ih]
      ring

theorem beVal_u64be (n : Nat) (h : n < 2 ^ 64) : beVal (u64be n) = n := by
  simp only [u64be, beVal, List.length_cons, List.length_nil]
  norm_num
  omega

theorem beVal_lt (l : List Nat) (h : ∀ x ∈ l, x < 256) : beVal l < 256 ^ l.length := by
  induction l with
  | nil => simp [beVal]
  | cons b t ih =>
      have hb : b < 256 := h b (by simp)
      have ht := ih (fun x hx => h x (by simp [hx]))
      simp only [beVal, List.length_cons]
      calc b * 256 ^ t.length + beVal t < b * 256 ^ t.length + 256 ^ t.length := by omega
        _ = (b + 1) * 256 ^ t.length := by ring
        _ ≤ 256 * 256 ^ t.length := Nat.mul_le_mul_right _ (by omega)
        _ = 256 ^ (t.length + 1) := by ring

/-- For byte strings of equal length, strict lexicographic order coincides
with the order of their big-endian values. -/
theorem lex_iff_beVal (a b : List Nat) (hlen : a.length = b.length)
    (ha : ∀ x ∈ a, x < 256) (hb : ∀ x ∈ b, x < 256) :
    List.Lex (· < ·) a b ↔ beVal a < beVal b := by
  induction a generalizing b with
  | nil =>
      cases b with
      | nil => simp [beVal]
      | cons y ys => simp at hlen
  | cons x xs ih =>
      cases b with
      | nil => simp at hlen
      | cons y ys =>
          have hlen' : xs.length = ys.length := by simpa using hlen
          have hx : x < 256 := ha x (by simp)
          have hy : y < 256 := hb y (by simp)
          have hxs := beVal_lt xs (fun z hz => ha z (by simp [hz]))
          have hys := beVal_lt ys (fun z hz => hb z (by simp [hz]))
          rw [hlen'] at hxs
          constructor
          · intro hlex
            cases hlex with
            | cons h =>
                have := (ih ys hlen' (fun z hz => ha z (by simp [hz]))
                  (fun z hz => hb z (by simp [hz]))).mp h
                simp only [beVal, hlen']
                omega
            | rel h =>
                simp only [beVal, hlen']
                have h1 : x + 1 ≤ y := h
                have h2 : (x + 1) * 256 ^ ys.length ≤ y * 256 ^ ys.length :=
                  Nat.mul_le_mul_right _ h1
                nlinarith [hxs, hys, h2]
          · intro hval
            simp only [beVal, hlen'] at hval
            rcases Nat.lt_trichotomy x y with hxy | hxy | hxy
            · exact List.Lex.rel hxy
            · subst hxy
              apply List.Lex.cons
              apply (ih ys hlen' (fun z hz => ha z (by simp [hz]))
                (fun z hz => hb z (by simp [hz]))).mpr
              omega
            · exfalso
              have h2 : (y + 1) * 256 ^ ys.length ≤ x * 256 ^ ys.length :=
                Nat.mul_le_mul_right _ hxy
              nlinarith [hxs, hys, h2]

/-! ### KV codec (`wal/src/kv_encoder.rs`)

Encoders are modelled as pure functions producing `List Nat` byte buffers;
decoders consume buffers and return `Except CodecError`.  Error variants
mirror the `Error` enum of the source with their context fields (the
formatted message strings are dropped).  The encode-side error variants of
the source can only arise from buffer-capacity failures of `BufMut`, which
a `List Nat` cannot exhibit, so encoding is total here.
-/

/-- `Namespace` enum of the source (`Meta = 0`, `Log = 1`). -/
inductive Namespace
  | Meta
  | Log
deriving DecidableEq

def Namespace.toU8 : Namespace → Nat
  | .Meta => 0
  | .Log => 1

/-- `MetaKeyType` enum of the source (`MaxSeq = 0`). -/
inductive MetaKeyType
  | MaxSeq
deriving DecidableEq

def MetaKeyType.toU8 : MetaKeyType → Nat
  | .MaxSeq => 0

/-- Decode-side variants of the codec `Error` enum. -/
inductive CodecError
  | DecodeLogKey
  | DecodeLogValueHeader
  | DecodeMetaKey
  | DecodeMetaValue
  | InvalidMetaKeyType (expect : MetaKeyType) (given : Nat)
  | InvalidNamespace (expect : Namespace) (given : Nat)
  | InvalidVersion (expect : Nat) (given : Nat)
deriving DecidableEq

def LOG_KEY_ENCODING_V0 : Nat := 0

def NEWEST_LOG_KEY_ENCODING_VERSION : Nat := LOG_KEY_ENCODING_V0

def LOG_VALUE_ENCODING_V0 : Nat := 0

def NEWEST_LOG_VALUE_ENCODING_VERSION : Nat := LOG_VALUE_ENCODING_V0

def META_KEY_ENCODING_V0 : Nat := 0

def NEWEST_META_KEY_ENCODING_VERSION : Nat := META_KEY_ENCODING_V0

def META_VALUE_ENCODING_V0 : Nat := 0

def NEWEST_META_VALUE_ENCODING_VERSION : Nat := META_VALUE_ENCODING_V0

/-- Plain log key `(region_id, sequence_num)`. -/
def LogKey : Type := Nat × Nat

structure LogKeyEncoder where
  version : Nat
  nspace : Namespace
deriving DecidableEq

def LogKeyEncoder.newest : LogKeyEncoder :=
  { version := NEWEST_LOG_KEY_ENCODING_VERSION, nspace := Namespace.Log }

/-- Key format: `namespace(u8) | region_id(u64) | sequence_num(u64) | version(u8)`. -/
def LogKeyEncoder.encode (e : LogKeyEncoder) (log_key : Nat × Nat) : List Nat :=
  e.nspace.toU8 :: (u64be log_key.1 ++ u64be log_key.2 ++ [e.version])

/-- Decoder for plain log keys: checks the namespace byte first, then reads
both `u64` fields, then checks the trailing version byte. -/
def LogKeyEncoder.decode (e : LogKeyEncoder) (buf : List Nat) :
    Except CodecError (Nat × Nat) :=
  match readU8 buf with
  | none => Except.error CodecError.DecodeLogKey
  | some (nsp, rest1) =>
    if nsp = e.nspace.toU8 then
      match readU64 rest1 with
      | none => Except.error CodecError.DecodeLogKey
      | some (region_id, rest2) =>
        match readU64 rest2 with
        | none => Except.error CodecError.DecodeLogKey
        | some (sequence_num, rest3) =>
          match readU8 rest3 with
          | none => Except.error CodecError.DecodeLogKey
          | some (version, _) =>
            if version = e.version then Except.ok (region_id, sequence_num)
            else Except.error (CodecError.InvalidVersion e.version version)
    else Except.error (CodecError.InvalidNamespace e.nspace nsp)

/-- Common log key `(region_id, table_id, sequence_num)`. -/
structure CommonLogKey where
  region_id : Nat
  table_id : Nat
  sequence_num : Nat
deriving DecidableEq

structure CommonLogKeyEncoder where
  version : Nat
  nspace : Namespace
deriving DecidableEq

def CommonLogKeyEncoder.newest : CommonLogKeyEncoder :=
  { version := NEWEST_LOG_KEY_ENCODING_VERSION, nspace := Namespace.Log }

/-- Key format:
`namespace(u8) | region_id(u64) | table_id(u64) | sequence_num(u64) | version(u8)`. -/
def CommonLogKeyEncoder.encode (e : CommonLogKeyEncoder) (log_key : CommonLogKey) :
    List Nat :=
  e.nspace.toU8 ::
    (u64be log_key.region_id ++ u64be log_key.table_id ++ u64be log_key.sequence_num ++
      [e.version])

def CommonLogKeyEncoder.decode (e : CommonLogKeyEncoder) (buf : List Nat) :
    Except CodecError CommonLogKey :=
  match readU8 buf with
  | none => Except.error CodecError.DecodeLogKey
  | some (nsp, rest1) =>
    if nsp = e.nspace.toU8 then
      match readU64 rest1 with
      | none => Except.error CodecError.DecodeLogKey
      | some (region_id, rest2) =>
        match readU64 rest2 with
        | none => Except.error CodecError.DecodeLogKey
        | some (table_id, rest3) =>
          match readU64 rest3 with
          | none => Except.error CodecError.DecodeLogKey
          | some (sequence_num, rest4) =>
            match readU8 rest4 with
            | none => Except.error CodecError.DecodeLogKey
            | some (version, _) =>
              if version = e.version then
                Except.ok { region_id := region_id, table_id := table_id,
                            sequence_num := sequence_num }
              else Except.error (CodecError.InvalidVersion e.version version)
    else Except.error (CodecError.InvalidNamespace e.nspace nsp)

structure LogValueDecoder where
  version : Nat

/-- Value format `version(u8) | payload`: strip the leading version byte
(checking it) and return the remaining payload bytes. -/
def LogValueDecoder.decode (d : LogValueDecoder) (buf : List Nat) :
    Except CodecError (List Nat) :=
  match readU8 buf with
  | none => Except.error CodecError.DecodeLogValueHeader
  | some (version, rest) =>
    if version = d.version then Except.ok rest
    else Except.error (CodecError.InvalidVersion d.version version)

structure MetaKey where
  region_id : Nat
deriving DecidableEq

structure MetaKeyEncoder where
  version : Nat
  key_type : MetaKeyType
  nspace : Namespace
deriving DecidableEq

/-- The meta-key encoder built by `MaxSeqMetaEncoding::newest()`. -/
def MetaKeyEncoder.newest : MetaKeyEncoder :=
  { version := NEWEST_META_KEY_ENCODING_VERSION, key_type := MetaKeyType.MaxSeq,
    nspace := Namespace.Meta }

/-- Key format: `namespace(u8) | key_type(u8) | region_id(u64) | version(u8)`. -/
def MetaKeyEncoder.encode (e : MetaKeyEncoder) (meta_key : MetaKey) : List Nat :=
  e.nspace.toU8 :: e.key_type.toU8 :: (u64be meta_key.region_id ++ [e.version])

def MetaKeyEncoder.decode (e : MetaKeyEncoder) (buf : List Nat) :
    Except CodecError MetaKey :=
  match readU8 buf with
  | none => Except.error CodecError.DecodeMetaKey
  | some (nsp, rest1) =>
    if nsp = e.nspace.toU8 then
      match readU8 rest1 with
      | none => Except.error CodecError.DecodeMetaKey
      | some (kt, rest2) =>
        if kt = e.key_type.toU8 then
          match readU64 rest2 with
          | none => Except.error CodecError.DecodeMetaKey
          | some (region_id, rest3) =>
            match readU8 rest3 with
            | none => Except.error CodecError.DecodeMetaKey
            | some (version, _) =>
              if version = e.version then Except.ok { region_id := region_id }
              else Except.error (CodecError.InvalidVersion e.version version)
        else Except.error (CodecError.InvalidMetaKeyType e.key_type kt)
    else Except.error (CodecError.InvalidNamespace e.nspace nsp)

structure MaxSeqMetaValue where
  max_seq : Nat
deriving DecidableEq

structure MaxSeqMetaValueEncoder where
  version : Nat

def MaxSeqMetaValueEncoder.newest : MaxSeqMetaValueEncoder :=
  { version := NEWEST_META_VALUE_ENCODING_VERSION }

/-- Value format: `version(u8) | max_seq(u64)`. -/
def MaxSeqMetaValueEncoder.encode (e : MaxSeqMetaValueEncoder)
    (meta_value : MaxSeqMetaValue) : List Nat :=
  e.version :: u64be meta_value.max_seq

def MaxSeqMetaValueEncoder.decode (e : MaxSeqMetaValueEncoder) (buf : List Nat) :
    Except CodecError MaxSeqMetaValue :=
  match readU8 buf with
  | none => Except.error CodecError.DecodeMetaValue
  | some (version, rest) =>
    if version = e.version then
      match readU64 rest with
      | none => Except.error CodecError.DecodeMetaValue
      | some (max_seq, _) => Except.ok { max_seq := max_seq }
    else Except.error (CodecError.InvalidVersion e.version version)

/-! ### Codec theorems -/

theorem Namespace.toU8_lt (n : Namespace) : n.toU8 < 256 := by
  cases n <;> simp [Namespace.toU8]

theorem logKey_bytes_lt (e : LogKeyEncoder) (hv : e.version < 256) (k : Nat × Nat) :
    ∀ x ∈ e.encode k, x < 256 := by
  intro x hx
  simp only [LogKeyEncoder.encode, List.mem_cons, List.mem_append,
    List.not_mem_nil, or_false] at hx
  rcases hx with h | (h | h) | h
  · subst h; exact Namespace.toU8_lt _
  · exact u64be_bytes_lt _ x h
  · exact u64be_bytes_lt _ x h
  · subst h; exact hv

theorem commonLogKey_bytes_lt (e : CommonLogKeyEncoder) (hv : e.version < 256)
    (k : CommonLogKey) : ∀ x ∈ e.encode k, x < 256 := by
  intro x hx
  simp only [CommonLogKeyEncoder.encode, List.mem_cons, List.mem_append,
    List.not_mem_nil, or_false] at hx
  rcases hx with h | ((h | h) | h) | h
  · subst h; exact Namespace.toU8_lt _
  · exact u64be_bytes_lt _ x h
  · exact u64be_bytes_lt _ x h
  · exact u64be_bytes_lt _ x h
  · subst h; exact hv

theorem beVal_cons (b : Nat) (l : List Nat) :
    beVal (b :: l) = b * 256 ^ l.length + beVal l := rfl

theorem beVal_single (b : Nat) : beVal [b] = b := by simp [beVal]

theorem beVal_logKey (e : LogKeyEncoder) (r s : Nat) (hr : r < 2 ^ 64) (hs : s < 2 ^ 64) :
    beVal (e.encode (r, s)) =
      e.nspace.toU8 * 256 ^ 17 + r * 256 ^ 9 + s * 256 + e.version := by
  rw [LogKeyEncoder.encode, beVal_cons, beVal_append, beVal_append,
    beVal_u64be r hr, beVal_u64be s hs, beVal_single]
  simp only [List.length_append, List.length_cons, List.length_nil, u64be_length]
  norm_num
  ring

theorem beVal_commonLogKey (e : CommonLogKeyEncoder) (r t s : Nat)
    (hr : r < 2 ^ 64) (ht : t < 2 ^ 64) (hs : s < 2 ^ 64) :
    beVal (e.encode ⟨r, t, s⟩) =
      e.nspace.toU8 * 256 ^ 25 + r * 256 ^ 17 + t * 256 ^ 9 + s * 256 + e.version := by
  rw [CommonLogKeyEncoder.encode, beVal_cons, beVal_append, beVal_append, beVal_append,
    beVal_u64be r hr, beVal_u64be t ht, beVal_u64be s hs, beVal_single]
  simp only [List.length_append, List.length_cons, List.length_nil, u64be_length]
  norm_num
  ring

/-- C3: encoding a plain log key `(region_id, sequence_num)` or a common log
key `(region_id, table_id, sequence_num)` with the newest encoder and then
decoding the produced bytes yields the original tuple exactly. -/
theorem c3_codec_roundtrip (r t s : Nat) (hr : r < 2 ^ 64) (ht : t < 2 ^ 64)
    (hs : s < 2 ^ 64) :
    LogKeyEncoder.newest.decode (LogKeyEncoder.newest.encode (r, s)) =
      Except.ok (r, s) ∧
    CommonLogKeyEncoder.newest.decode
        (CommonLogKeyEncoder.newest.encode ⟨r, t, s⟩) =
      Except.ok (⟨r, t, s⟩ : CommonLogKey) := by
  constructor
  · simp [LogKeyEncoder.decode, LogKeyEncoder.encode, LogKeyEncoder.newest,
      Namespace.toU8, readU8, List.append_assoc, readU64_u64be r hr,
      readU64_u64be s hs, NEWEST_LOG_KEY_ENCODING_VERSION, LOG_KEY_ENCODING_V0]
  · simp [CommonLogKeyEncoder.decode, CommonLogKeyEncoder.encode,
      CommonLogKeyEncoder.newest, Namespace.toU8, readU8, List.append_assoc,
      readU64_u64be r hr, readU64_u64be t ht, readU64_u64be s hs,
      NEWEST_LOG_KEY_ENCODING_VERSION, LOG_KEY_ENCODING_V0]

/-- C3 witness at the literal values of the repository's own codec test. -/
theorem c3_codec_roundtrip_witness :
    LogKeyEncoder.newest.decode (LogKeyEncoder.newest.encode (1234, 1000)) =
      Except.ok (1234, 1000) ∧
    CommonLogKeyEncoder.newest.decode
        (CommonLogKeyEncoder.newest.encode ⟨1234, 8910, 1000⟩) =
      Except.ok (⟨1234, 8910, 1000⟩ : CommonLogKey) :=
  c3_codec_roundtrip 1234 8910 1000 (by norm_num) (by norm_num) (by norm_num)

/-- Strict lexicographic order on `(namespace, region_id, sequence_num)`. -/
def plainTupleLt (n1 r1 s1 n2 r2 s2 : Nat) : Prop :=
  n1 < n2 ∨ (n1 = n2 ∧ (r1 < r2 ∨ (r1 = r2 ∧ s1 < s2)))

/-- Strict lexicographic order on `(namespace, region_id, table_id, sequence_num)`. -/
def commonTupleLt (n1 r1 t1 s1 n2 r2 t2 s2 : Nat) : Prop :=
  n1 < n2 ∨ (n1 = n2 ∧ (r1 < r2 ∨ (r1 = r2 ∧ (t1 < t2 ∨ (t1 = t2 ∧ s1 < s2)))))

theorem logKey_lex_iff (e1 e2 : LogKeyEncoder) (hv : e1.version = e2.version)
    (hvb : e1.version < 256) (r1 s1 r2 s2 : Nat) (hr1 : r1 < 2 ^ 64)
    (hs1 : s1 < 2 ^ 64) (hr2 : r2 < 2 ^ 64) (hs2 : s2 < 2 ^ 64) :
    List.Lex (· < ·) (e1.encode (r1, s1)) (e2.encode (r2, s2)) ↔
      plainTupleLt e1.nspace.toU8 r1 s1 e2.nspace.toU8 r2 s2 := by
  rw [lex_iff_beVal _ _ (by rfl) (logKey_bytes_lt e1 hvb _)
    (logKey_bytes_lt e2 (hv ▸ hvb) _)]
  rw [beVal_logKey e1 r1 s1 hr1 hs1, beVal_logKey e2 r2 s2 hr2 hs2, ← hv]
  have h1 := Namespace.toU8_lt e1.nspace
  have h2 := Namespace.toU8_lt e2.nspace
  simp only [plainTupleLt]
  omega

theorem commonLogKey_lex_iff (e1 e2 : CommonLogKeyEncoder)
    (hv : e1.version = e2.version) (hvb : e1.version < 256)
    (r1 t1 s1 r2 t2 s2 : Nat) (hr1 : r1 < 2 ^ 64) (ht1 : t1 < 2 ^ 64)
    (hs1 : s1 < 2 ^ 64) (hr2 : r2 < 2 ^ 64) (ht2 : t2 < 2 ^ 64) (hs2 : s2 < 2 ^ 64) :
    List.Lex (· < ·) (e1.encode ⟨r1, t1, s1⟩) (e2.encode ⟨r2, t2, s2⟩) ↔
      commonTupleLt e1.nspace.toU8 r1 t1 s1 e2.nspace.toU8 r2 t2 s2 := by
  rw [lex_iff_beVal _ _ (by rfl) (commonLogKey_bytes_lt e1 hvb _)
    (commonLogKey_bytes_lt e2 (hv ▸ hvb) _)]
  rw [beVal_commonLogKey e1 r1 t1 s1 hr1 ht1 hs1,
    beVal_commonLogKey e2 r2 t2 s2 hr2 ht2 hs2, ← hv]
  have h1 := Namespace.toU8_lt e1.nspace
  have h2 := Namespace.toU8_lt e2.nspace
  simp only [commonTupleLt]
  omega

/-- C4: encoded keys sort in tuple order.  With the newest encoders, for a
fixed region `s1 < s2` makes the encoded plain key strictly smaller
lexicographically, and likewise for common keys at fixed
`(region_id, table_id)`; in general, for any two key encoders sharing a
version, lexicographic order of the encoded bytes coincides with
lexicographic order of the `(namespace, region_id[, table_id],
sequence_num)` tuples. -/
theorem c4_key_order (r t s1 s2 : Nat) (hr : r < 2 ^ 64) (ht : t < 2 ^ 64)
    (hs1 : s1 < 2 ^ 64) (hs2 : s2 < 2 ^ 64) (hlt : s1 < s2)
    (e1 e2 : LogKeyEncoder) (f1 f2 : CommonLogKeyEncoder)
    (hev : e1.version = e2.version) (hevb : e1.version < 256)
    (hfv : f1.version = f2.version) (hfvb : f1.version < 256)
    (r1 t1 u1 r2 t2 u2 : Nat) (hr1 : r1 < 2 ^ 64) (ht1 : t1 < 2 ^ 64)
    (hu1 : u1 < 2 ^ 64) (hr2 : r2 < 2 ^ 64) (ht2 : t2 < 2 ^ 64) (hu2 : u2 < 2 ^ 64) :
    List.Lex (· < ·) (LogKeyEncoder.newest.encode (r, s1))
        (LogKeyEncoder.newest.encode (r, s2)) ∧
    List.Lex (· < ·) (CommonLogKeyEncoder.newest.encode ⟨r, t, s1⟩)
        (CommonLogKeyEncoder.newest.encode ⟨r, t, s2⟩) ∧
    (List.Lex (· < ·) (e1.encode (r1, u1)) (e2.encode (r2, u2)) ↔
      plainTupleLt e1.nspace.toU8 r1 u1 e2.nspace.toU8 r2 u2) ∧
    (List.Lex (· < ·) (f1.encode ⟨r1, t1, u1⟩) (f2.encode ⟨r2, t2, u2⟩) ↔
      commonTupleLt f1.nspace.toU8 r1 t1 u1 f2.nspace.toU8 r2 t2 u2) := by
  refine ⟨?_, ?_, ?_, ?_⟩
  · rw [logKey_lex_iff LogKeyEncoder.newest LogKeyEncoder.newest rfl (by norm_num
      [LogKeyEncoder.newest, NEWEST_LOG_KEY_ENCODING_VERSION, LOG_KEY_ENCODING_V0])
      r s1 r s2 hr hs1 hr hs2]
    simp [plainTupleLt, hlt]
  · rw [commonLogKey_lex_iff CommonLogKeyEncoder.newest CommonLogKeyEncoder.newest rfl
      (by norm_num [CommonLogKeyEncoder.newest, NEWEST_LOG_KEY_ENCODING_VERSION,
        LOG_KEY_ENCODING_V0]) r t s1 r t s2 hr ht hs1 hr ht hs2]
    simp [commonTupleLt, hlt]
  · exact logKey_lex_iff e1 e2 hev hevb r1 u1 r2 u2 hr1 hu1 hr2 hu2
  · exact commonLogKey_lex_iff f1 f2 hfv hfvb r1 t1 u1 r2 t2 u2 hr1 ht1 hu1 hr2 ht2 hu2

/-- C4 witness at concrete keys and the newest encoders. -/
theorem c4_key_order_witness :
    List.Lex (· < ·) (LogKeyEncoder.newest.encode (7, 3))
        (LogKeyEncoder.newest.encode (7, 4)) ∧
    List.Lex (· < ·) (CommonLogKeyEncoder.newest.encode ⟨7, 9, 3⟩)
        (CommonLogKeyEncoder.newest.encode ⟨7, 9, 4⟩) ∧
    (List.Lex (· < ·) (LogKeyEncoder.newest.encode (1, 5))
        (LogKeyEncoder.newest.encode (2, 0)) ↔
      plainTupleLt LogKeyEncoder.newest.nspace.toU8 1 5
        LogKeyEncoder.newest.nspace.toU8 2 0) ∧
    (List.Lex (· < ·) (CommonLogKeyEncoder.newest.encode ⟨1, 8, 5⟩)
        (CommonLogKeyEncoder.newest.encode ⟨2, 8, 0⟩) ↔
      commonTupleLt CommonLogKeyEncoder.newest.nspace.toU8 1 8 5
        CommonLogKeyEncoder.newest.nspace.toU8 2 8 0) :=
  c4_key_order 7 9 3 4 (by norm_num) (by norm_num) (by norm_num) (by norm_num)
    (by norm_num) LogKeyEncoder.newest LogKeyEncoder.newest CommonLogKeyEncoder.newest
    CommonLogKeyEncoder.newest rfl (by norm_num [LogKeyEncoder.newest,
      NEWEST_LOG_KEY_ENCODING_VERSION, LOG_KEY_ENCODING_V0]) rfl
    (by norm_num [CommonLogKeyEncoder.newest, NEWEST_LOG_KEY_ENCODING_VERSION,
      LOG_KEY_ENCODING_V0]) 1 8 5 2 8 0 (by norm_num) (by norm_num) (by norm_num)
    (by norm_num) (by norm_num) (by norm_num)

/-- C8 counterexample: the claim quantifies over every buffer whose version
byte is nonzero, but the decoders check the namespace byte first.  The
18-byte buffer with namespace byte `0` and version byte `1` decodes as a
plain log key to `InvalidNamespace`, not `InvalidVersion`. -/
theorem c8_version_rejection_counterexample :
    LogKeyEncoder.newest.decode (0 :: (u64be 0 ++ u64be 0 ++ [1])) =
      Except.error (CodecError.InvalidNamespace Namespace.Log 0) ∧
    CodecError.InvalidNamespace Namespace.Log 0 ≠ CodecError.InvalidVersion 0 1 := by
  constructor
  · rfl
  · decide

/-- C8 amended: on a buffer that is well-formed up to the version position
(valid namespace byte, for meta keys also a valid key-type byte, and enough
bytes for the fixed-width fields), a version byte other than `0` makes each
of the five decoders fail with `InvalidVersion` carrying expected version
`0` and the given byte; for the log-value and max-seq meta-value decoders
the version byte is leading, so this holds for any nonempty buffer. -/
theorem c8_version_rejection_amended (r t s v : Nat) (rest : List Nat)
    (hr : r < 2 ^ 64) (ht : t < 2 ^ 64) (hs : s < 2 ^ 64) (hv : v ≠ 0) :
    LogKeyEncoder.newest.decode (1 :: (u64be r ++ u64be s ++ [v])) =
      Except.error (CodecError.InvalidVersion 0 v) ∧
    CommonLogKeyEncoder.newest.decode
        (1 :: (u64be r ++ u64be t ++ u64be s ++ [v])) =
      Except.error (CodecError.InvalidVersion 0 v) ∧
    LogValueDecoder.decode ⟨NEWEST_LOG_VALUE_ENCODING_VERSION⟩ (v :: rest) =
      Except.error (CodecError.InvalidVersion 0 v) ∧
    MetaKeyEncoder.newest.decode (0 :: 0 :: (u64be r ++ [v])) =
      Except.error (CodecError.InvalidVersion 0 v) ∧
    MaxSeqMetaValueEncoder.newest.decode (v :: rest) =
      Except.error (CodecError.InvalidVersion 0 v) := by
  refine ⟨?_, ?_, ?_, ?_, ?_⟩
  · simp [LogKeyEncoder.decode, LogKeyEncoder.newest, Namespace.toU8, readU8,
      List.append_assoc, readU64_u64be r hr, readU64_u64be s hs, hv,
      NEWEST_LOG_KEY_ENCODING_VERSION, LOG_KEY_ENCODING_V0]
  · simp [CommonLogKeyEncoder.decode, CommonLogKeyEncoder.newest, Namespace.toU8,
      readU8, List.append_assoc, readU64_u64be r hr, readU64_u64be t ht,
      readU64_u64be s hs, hv, NEWEST_LOG_KEY_ENCODING_VERSION, LOG_KEY_ENCODING_V0]
  · simp [LogValueDecoder.decode, readU8, hv, NEWEST_LOG_VALUE_ENCODING_VERSION,
      LOG_VALUE_ENCODING_V0]
  · simp [MetaKeyEncoder.decode, MetaKeyEncoder.newest, Namespace.toU8,
      MetaKeyType.toU8, readU8, List.append_assoc, readU64_u64be r hr, hv,
      NEWEST_META_KEY_ENCODING_VERSION, META_KEY_ENCODING_V0]
  · simp [MaxSeqMetaValueEncoder.decode, MaxSeqMetaValueEncoder.newest, readU8,
      readU64_u64be r hr, hv, NEWEST_META_VALUE_ENCODING_VERSION, META_VALUE_ENCODING_V0]

/-- C8 witness: version byte `1` is rejected on concrete well-formed buffers. -/
theorem c8_version_rejection_amended_witness :
    LogKeyEncoder.newest.decode (1 :: (u64be 1234 ++ u64be 1000 ++ [1])) =
      Except.error (CodecError.InvalidVersion 0 1) ∧
    CommonLogKeyEncoder.newest.decode
        (1 :: (u64be 1234 ++ u64be 8910 ++ u64be 1000 ++ [1])) =
      Except.error (CodecError.InvalidVersion 0 1) ∧
    LogValueDecoder.decode ⟨NEWEST_LOG_VALUE_ENCODING_VERSION⟩ (1 :: [42]) =
      Except.error (CodecError.InvalidVersion 0 1) ∧
    MetaKeyEncoder.newest.decode (0 :: 0 :: (u64be 1234 ++ [1])) =
      Except.error (CodecError.InvalidVersion 0 1) ∧
    MaxSeqMetaValueEncoder.newest.decode (1 :: [42]) =
      Except.error (CodecError.InvalidVersion 0 1) :=
  c8_version_rejection_amended 1234 8910 1000 1 [42] (by norm_num) (by norm_num)
    (by norm_num) (by norm_num)

/-! ### Region log store (`wal/src/table_kv_impl/region.rs`)

`RegionState` keeps the `region_id` and the two atomic sequence fields.
`alloc_sequence_num` and `write_log` are embedded as pure state-passing
functions; the external blocking KV write of `write_log` is outside the
model, so `write_log` returns the write batch it would submit, the
max sequence number it would return on KV success, and the updated state
(the `fetch_add` happens before the KV write, so the state update is
unconditional).  `AtomicU64::fetch_add` wraps modulo `2 ^ 64`, which the
model keeps explicit; the local `next_sequence_num - 1` of the source is
likewise computed modulo `2 ^ 64` (the value release-mode `u64` arithmetic
produces). -/

def MIN_SEQUENCE_NUMBER : Nat := 0

def MAX_SEQUENCE_NUMBER : Nat := 2 ^ 64 - 1

def U64_LIMIT : Nat := 2 ^ 64

structure RegionState where
  region_id : Nat
  start_sequence : Nat
  last_sequence : Nat
deriving DecidableEq

inductive RegionError
  | SequenceOverflow (region_id : Nat)
deriving DecidableEq

/-- `RegionWriter::alloc_sequence_num`: precheck
`last_sequence < MAX_SEQUENCE_NUMBER`, then `fetch_add(number)` (wrapping)
and return the first sequence of the allocated range, `old_last + 1`. -/
def alloc_sequence_num (region_state : RegionState) (number : Nat) :
    Except RegionError (Nat × RegionState) :=
  if region_state.last_sequence < MAX_SEQUENCE_NUMBER then
    Except.ok (region_state.last_sequence + 1,
      { region_state with
          last_sequence := (region_state.last_sequence + number) % U64_LIMIT })
  else Except.error (RegionError.SequenceOverflow region_state.region_id)

structure LogWriteEntry where
  payload : List Nat
deriving DecidableEq

/-- The key-building loop of `RegionWriter::write_log`: each entry is
keyed by the current `next_sequence_num`, which is then incremented (as a
`u64`, hence modulo `2 ^ 64`). -/
def write_log_batch (enc : LogKeyEncoder) (region_id : Nat)
    (next_sequence_num : Nat) : List LogWriteEntry → List (List Nat × List Nat)
  | [] => []
  | entry :: rest =>
      (enc.encode (region_id, next_sequence_num), entry.payload) ::
        write_log_batch enc region_id ((next_sequence_num + 1) % U64_LIMIT) rest

/-- `RegionWriter::write_log` up to the external KV write.  The source uses
`log_batch.location.table_id` as the region id of the encoded keys; it is
the `region_id` argument here. -/
def write_log (region_state : RegionState) (region_id : Nat)
    (entries : List LogWriteEntry) :
    Except RegionError (List (List Nat × List Nat) × Nat × RegionState) :=
  match alloc_sequence_num region_state entries.length with
  | Except.error e => Except.error e
  | Except.ok (next_sequence_num, state2) =>
      Except.ok (write_log_batch LogKeyEncoder.newest region_id next_sequence_num entries,
        (next_sequence_num + entries.length - 1) % U64_LIMIT, state2)

theorem write_log_ok (region_state : RegionState) (region_id : Nat)
    (entries : List LogWriteEntry)
    (h2 : region_state.last_sequence + entries.length < 2 ^ 64)
    (h1 : 1 ≤ entries.length) :
    write_log region_state region_id entries = Except.ok
      (write_log_batch LogKeyEncoder.newest region_id
          (region_state.last_sequence + 1) entries,
        region_state.last_sequence + entries.length,
        { region_state with
            last_sequence := region_state.last_sequence + entries.length }) := by
  have hlt : region_state.last_sequence < MAX_SEQUENCE_NUMBER := by
    simp only [MAX_SEQUENCE_NUMBER]
    omega
  simp only [write_log, alloc_sequence_num, if_pos hlt]
  have hmod : (region_state.last_sequence + entries.length) % U64_LIMIT =
      region_state.last_sequence + entries.length :=
    Nat.mod_eq_of_lt (by simpa [U64_LIMIT] using h2)
  have hmax : (region_state.last_sequence + 1 + entries.length - 1) % U64_LIMIT =
      region_state.last_sequence + entries.length := by
    have : region_state.last_sequence + 1 + entries.length - 1 =
        region_state.last_sequence + entries.length := by omega
    rw [this, hmod]
  rw [hmax, hmod]

theorem write_log_batch_spec (enc : LogKeyEncoder) (region_id f : Nat)
    (entries : List LogWriteEntry) (h : f + entries.length ≤ 2 ^ 64) :
    (write_log_batch enc region_id f entries).map Prod.fst =
      (List.range entries.length).map (fun i => enc.encode (region_id, f + i)) ∧
    (write_log_batch enc region_id f entries).map Prod.snd =
      entries.map LogWriteEntry.payload := by
  induction entries generalizing f with
  | nil => simp [write_log_batch]
  | cons e rest ih =>
      have hunf : write_log_batch enc region_id f (e :: rest) =
          (enc.encode (region_id, f), e.payload) ::
            write_log_batch enc region_id ((f + 1) % U64_LIMIT) rest := rfl
      cases rest with
      | nil => simp [hunf, write_log_batch, List.range_succ]
      | cons r rs =>
          have hf1 : (f + 1) % U64_LIMIT = f + 1 := by
            apply Nat.mod_eq_of_lt
            simp only [List.length_cons, U64_LIMIT] at h ⊢
            omega
          have hrec := ih (f + 1) (by simp only [List.length_cons] at h ⊢; omega)
          rw [hunf, hf1]
          constructor
          · rw [List.map_cons, hrec.1]
            conv_rhs => rw [List.length_cons, List.range_succ_eq_map]
            rw [List.map_cons, List.map_map]
            have hhead : enc.encode (region_id, f + 0) = enc.encode (region_id, f) := by
              norm_num
            rw [hhead]
            congr 1
            apply List.map_congr_left
            intro i _
            have hsh : f + 1 + i = f + (i + 1) := by omega
            simp [Function.comp, Nat.succ_eq_add_one, hsh]
          · rw [List.map_cons, hrec.2]
            simp

/-- C5 counterexample: with `last_sequence = 2^64 - 2` (the precheck
passes) a batch of two entries wraps the `u64` counter, so the call
returns max sequence `0`, not `prev + n = 2^64`. -/
theorem c5_batch_write_counterexample :
    write_log ⟨1, 0, 2 ^ 64 - 2⟩ 1 [⟨[]⟩, ⟨[]⟩] =
      Except.ok ([(LogKeyEncoder.newest.encode (1, 2 ^ 64 - 1), []),
                  (LogKeyEncoder.newest.encode (1, 0), [])], 0,
        (⟨1, 0, 0⟩ : RegionState)) ∧
    (0 : Nat) ≠ 2 ^ 64 - 2 + 2 := by
  constructor
  · rfl
  · norm_num

/-- C5 amended: when the precheck passes and additionally
`prev + n < 2 ^ 64` (no `u64` wrap), a `write_log` call with `n ≥ 1`
entries on a region with `last_sequence = prev` submits keys carrying the
contiguous sequences `prev + 1, …, prev + n` paired with the batch
payloads in order, returns `prev + n`, and leaves `last_sequence = prev +
n`; a subsequent successful call therefore returns a strictly larger max
sequence. -/
theorem c5_batch_write_amended (region_state : RegionState) (region_id : Nat)
    (entries : List LogWriteEntry) (h1 : 1 ≤ entries.length)
    (h2 : region_state.last_sequence + entries.length < 2 ^ 64) :
    (∃ wb : List (List Nat × List Nat),
      write_log region_state region_id entries = Except.ok
        (wb, region_state.last_sequence + entries.length,
          { region_state with
              last_sequence := region_state.last_sequence + entries.length }) ∧
      wb.map Prod.fst = (List.range entries.length).map
        (fun i => LogKeyEncoder.newest.encode
          (region_id, region_state.last_sequence + 1 + i)) ∧
      wb.map Prod.snd = entries.map LogWriteEntry.payload) ∧
    region_state.last_sequence < region_state.last_sequence + entries.length ∧
    (∀ entries2 : List LogWriteEntry, 1 ≤ entries2.length →
      region_state.last_sequence + entries.length + entries2.length < 2 ^ 64 →
      ∃ wb2 : List (List Nat × List Nat),
        write_log { region_state with
            last_sequence := region_state.last_sequence + entries.length }
          region_id entries2 = Except.ok
          (wb2, region_state.last_sequence + entries.length + entries2.length,
            { region_state with
                last_sequence :=
                  region_state.last_sequence + entries.length + entries2.length }) ∧
        region_state.last_sequence + entries.length <
          region_state.last_sequence + entries.length + entries2.length) := by
  have hspec := write_log_batch_spec LogKeyEncoder.newest region_id
    (region_state.last_sequence + 1) entries (by omega)
  refine ⟨⟨_, write_log_ok region_state region_id entries h2 h1, hspec.1, hspec.2⟩,
    by omega, ?_⟩
  intro entries2 h1b h2b
  have hcall2 := write_log_ok
    { region_state with
        last_sequence := region_state.last_sequence + entries.length }
    region_id entries2 (by simpa using h2b) h1b
  exact ⟨_, hcall2, by omega⟩

/-- C5 witness: two successive two-entry batches on an empty region. -/
theorem c5_batch_write_amended_witness :
    (∃ wb : List (List Nat × List Nat),
      write_log ⟨7, 0, 0⟩ 7 [⟨[1]⟩, ⟨[2]⟩] = Except.ok
        (wb, 0 + [(⟨[1]⟩ : LogWriteEntry), ⟨[2]⟩].length,
          { (⟨7, 0, 0⟩ : RegionState) with
              last_sequence := 0 + [(⟨[1]⟩ : LogWriteEntry), ⟨[2]⟩].length }) ∧
      wb.map Prod.fst = (List.range [(⟨[1]⟩ : LogWriteEntry), ⟨[2]⟩].length).map
        (fun i => LogKeyEncoder.newest.encode (7, 0 + 1 + i)) ∧
      wb.map Prod.snd =
        [(⟨[1]⟩ : LogWriteEntry), ⟨[2]⟩].map LogWriteEntry.payload) ∧
    0 < 0 + [(⟨[1]⟩ : LogWriteEntry), ⟨[2]⟩].length ∧
    (∀ entries2 : List LogWriteEntry, 1 ≤ entries2.length →
      0 + [(⟨[1]⟩ : LogWriteEntry), ⟨[2]⟩].length + entries2.length < 2 ^ 64 →
      ∃ wb2 : List (List Nat × List Nat),
        write_log { (⟨7, 0, 0⟩ : RegionState) with
            last_sequence := 0 + [(⟨[1]⟩ : LogWriteEntry), ⟨[2]⟩].length }
          7 entries2 = Except.ok
          (wb2, 0 + [(⟨[1]⟩ : LogWriteEntry), ⟨[2]⟩].length + entries2.length,
            { (⟨7, 0, 0⟩ : RegionState) with
                last_sequence :=
                  0 + [(⟨[1]⟩ : LogWriteEntry), ⟨[2]⟩].length + entries2.length }) ∧
        0 + [(⟨[1]⟩ : LogWriteEntry), ⟨[2]⟩].length <
          0 + [(⟨[1]⟩ : LogWriteEntry), ⟨[2]⟩].length + entries2.length) :=
  c5_batch_write_amended ⟨7, 0, 0⟩ 7 [⟨[1]⟩, ⟨[2]⟩] (by norm_num) (by norm_num)

/-- C6: the sequence-overflow precheck is insufficient for batches: from
`last_sequence = 2^64 - 2` (a value reachable by earlier writes, and
strictly below `MAX_SEQUENCE_NUMBER`, so the precheck passes) a one-entry
batch allocates and returns the reserved sentinel `MAX_SEQUENCE_NUMBER =
2^64 - 1`, which the specification says is never allocated. -/
theorem c6_sentinel_allocation_bug :
    write_log ⟨7, 0, 2 ^ 64 - 2⟩ 7 [⟨[]⟩] =
      Except.ok ([(LogKeyEncoder.newest.encode (7, MAX_SEQUENCE_NUMBER), [])],
        MAX_SEQUENCE_NUMBER, (⟨7, 0, MAX_SEQUENCE_NUMBER⟩ : RegionState)) ∧
    (2 : Nat) ^ 64 - 2 < MAX_SEQUENCE_NUMBER := by
  constructor
  · rfl
  · norm_num [MAX_SEQUENCE_NUMBER]

/-! ### Region meta registry (`wal/src/message_queue_impl/region_meta.rs`)

The registry's `HashMap<TableId, TableMeta>` is modelled as an association
list with `Nat` keys (`alGet` / `alInsert`, insert replacing any previous
binding); the per-table `BTreeMap<SequenceNumber, Offset>` is modelled by
its lookup function, since the source only ever reads it through
`get(&latest_marked_deleted)`.  The per-table mutex and registry `RwLock`
serialise the source's operations, so each operation is a pure function of
the registry state.  Error variants keep their context fields; the
formatted message strings are dropped. -/

def alGet {α : Type} (l : List (Nat × α)) (k : Nat) : Option α :=
  (l.find? (fun p => p.1 == k)).map Prod.snd

def alInsert {α : Type} (l : List (Nat × α)) (k : Nat) (v : α) : List (Nat × α) :=
  (k, v) :: l.filter (fun p => p.1 != k)

/-- `start_sequence_offset_mapping`, as its lookup function. -/
def OffMap : Type := Nat → Option Int

def OffMap.empty : OffMap := fun _ => none

def OffMap.insert (m : OffMap) (k : Nat) (v : Int) : OffMap :=
  fun q => if q = k then some v else m q

/-- `retain(|k, _| k >= &latest_marked_deleted)`. -/
def OffMap.retainGe (m : OffMap) (k0 : Nat) : OffMap :=
  fun q => if k0 ≤ q then m q else none

/-- `TableMetaInner` (sequence numbers `u64` as `Nat`, offsets `i64` as `Int`). -/
structure TableMetaInner where
  next_sequence_num : Nat
  latest_marked_deleted : Nat
  current_high_watermark : Int
  start_sequence_offset_mapping : OffMap

/-- `TableMetaInner::default()`. -/
def TableMetaInner.default : TableMetaInner :=
  { next_sequence_num := 0, latest_marked_deleted := 0,
    current_high_watermark := 0, start_sequence_offset_mapping := OffMap.empty }

structure TableMetaData where
  table_id : Nat
  next_sequence_num : Nat
  latest_marked_deleted : Nat
  current_high_watermark : Int
  safe_delete_offset : Option Int
deriving DecidableEq

structure RegionMetaSnapshot where
  entries : List TableMetaData
deriving DecidableEq

/-- Region-meta `Error` variants. -/
inductive RMError
  | UpdateAfterWrite (table_id : Nat)
  | MarkDeleted (table_id : Nat)
  | GetTableMeta (table_id : Nat)
  | Build
deriving DecidableEq

def I64_MIN : Int := -(2 ^ 63)

def I64_MAX : Int := 2 ^ 63 - 1

/-- Wrapping `i64` arithmetic (release-mode Rust): reduce into
`[-2^63, 2^63)`. -/
def wrapI64 (x : Int) : Int := (x + 2 ^ 63) % 2 ^ 64 - 2 ^ 63

/-- The `as u64` bitcast of an `i64` value: its bit pattern read unsigned. -/
def i64ToU64 (x : Int) : Nat := (x % 2 ^ 64).toNat

/-- `TableMeta::update_after_write`: record `old_next_sequence_num → start`,
advance `next_sequence_num` by `(end - start + 1) as u64`, set the high
watermark to `end + 1`.  The `i64` difference `end - start + 1` wraps and
is then bitcast to `u64`; `next_sequence_num` is a wrapping `u64` counter;
`end + 1` wraps as `i64` (all release-mode semantics; debug builds would
panic at the same inputs instead of wrapping). -/
def TableMeta.update_after_write (m : TableMetaInner) (ostart oend : Int) :
    TableMetaInner :=
  let updated_num := i64ToU64 (wrapI64 (oend - ostart + 1))
  { m with
      next_sequence_num := (m.next_sequence_num + updated_num) % 2 ^ 64,
      start_sequence_offset_mapping :=
        m.start_sequence_offset_mapping.insert m.next_sequence_num ostart,
      current_high_watermark := wrapI64 (oend + 1) }

/-- `TableMeta::mark_deleted`: require
`latest_marked_deleted ≤ next_sequence_num` and that the new mark is not
behind the old one; then store it and prune mapping keys below it. -/
def TableMeta.mark_deleted (table_id : Nat) (m : TableMetaInner)
    (latest_marked_deleted : Nat) : Except RMError TableMetaInner :=
  if latest_marked_deleted ≤ m.next_sequence_num then
    if m.latest_marked_deleted ≤ latest_marked_deleted then
      Except.ok { m with
        latest_marked_deleted := latest_marked_deleted,
        start_sequence_offset_mapping :=
          m.start_sequence_offset_mapping.retainGe latest_marked_deleted }
    else Except.error (RMError.MarkDeleted table_id)
  else Except.error (RMError.MarkDeleted table_id)

/-- `TableMeta::get_meta_data`.  When
`next_sequence_num > latest_marked_deleted` the source asserts that the
mapping holds an entry at `latest_marked_deleted` and panics otherwise; the
model returns the (then possibly absent) lookup instead of aborting. -/
def TableMeta.get_meta_data (table_id : Nat) (m : TableMetaInner) : TableMetaData :=
  if m.next_sequence_num = m.latest_marked_deleted then
    { table_id := table_id, next_sequence_num := m.next_sequence_num,
      latest_marked_deleted := m.latest_marked_deleted,
      current_high_watermark := m.current_high_watermark,
      safe_delete_offset := none }
  else
    { table_id := table_id, next_sequence_num := m.next_sequence_num,
      latest_marked_deleted := m.latest_marked_deleted,
      current_high_watermark := m.current_high_watermark,
      safe_delete_offset := m.start_sequence_offset_mapping m.latest_marked_deleted }

/-- `TableMeta::prepare_for_write` returns `get_meta_data().next_sequence_num`. -/
def TableMeta.prepare_for_write (m : TableMetaInner) : Nat :=
  (TableMeta.get_meta_data 0 m).next_sequence_num

/-- `RegionMeta` (the registry), its `RwLock`/mutex structure erased. -/
structure RegionMeta where
  table_metas : List (Nat × TableMetaInner)

/-- `RegionMeta::default()`. -/
def RegionMeta.init : RegionMeta := ⟨[]⟩

/-- `RegionMeta::prepare_for_table_write`: return the table's next sequence
number, creating a zeroed entry (and returning `SequenceNumber::MIN = 0`)
on first use. -/
def RegionMeta.prepare_for_table_write (s : RegionMeta) (table_id : Nat) :
    Nat × RegionMeta :=
  match alGet s.table_metas table_id with
  | some m => (TableMeta.prepare_for_write m, s)
  | none => (0, ⟨alInsert s.table_metas table_id TableMetaInner.default⟩)

/-- `RegionMeta::update_after_table_write`: check `start ≤ end`, then look
the table up (failing with `UpdateAfterWrite` if absent) and update it. -/
def RegionMeta.update_after_table_write (s : RegionMeta) (table_id : Nat)
    (ostart oend : Int) : Except RMError RegionMeta :=
  if ostart ≤ oend then
    match alGet s.table_metas table_id with
    | none => Except.error (RMError.UpdateAfterWrite table_id)
    | some m =>
        Except.ok ⟨alInsert s.table_metas table_id
          (TableMeta.update_after_write m ostart oend)⟩
  else Except.error (RMError.UpdateAfterWrite table_id)

/-- `RegionMeta::mark_table_deleted`. -/
def RegionMeta.mark_table_deleted (s : RegionMeta) (table_id : Nat)
    (sequence_num : Nat) : Except RMError RegionMeta :=
  match alGet s.table_metas table_id with
  | none => Except.error (RMError.MarkDeleted table_id)
  | some m =>
      match TableMeta.mark_deleted table_id m sequence_num with
      | Except.error e => Except.error e
      | Except.ok m2 => Except.ok ⟨alInsert s.table_metas table_id m2⟩

/-- `RegionMeta::get_table_meta_data`. -/
def RegionMeta.get_table_meta_data (s : RegionMeta) (table_id : Nat) :
    Except RMError TableMetaData :=
  match alGet s.table_metas table_id with
  | none => Except.error (RMError.GetTableMeta table_id)
  | some m => Except.ok (TableMeta.get_meta_data table_id m)

/-- `RegionMeta::make_snapshot`: collect every table's meta data. -/
def RegionMeta.make_snapshot (s : RegionMeta) : RegionMetaSnapshot :=
  ⟨s.table_metas.map (fun p => TableMeta.get_meta_data p.1 p.2)⟩

/-- `impl From<TableMetaData> for TableMetaInner`: the mapping keeps only
the entry at `latest_marked_deleted` and only when a safe delete offset is
present. -/
def tableMetaInnerOfData (d : TableMetaData) : TableMetaInner :=
  { next_sequence_num := d.next_sequence_num,
    latest_marked_deleted := d.latest_marked_deleted,
    current_high_watermark := d.current_high_watermark,
    start_sequence_offset_mapping :=
      match d.safe_delete_offset with
      | some off => OffMap.empty.insert d.latest_marked_deleted off
      | none => OffMap.empty }

structure RegionMetaBuilder where
  table_metas : List (Nat × TableMetaInner)

/-- `RegionMetaBuilder::default()`. -/
def RegionMetaBuilder.init : RegionMetaBuilder := ⟨[]⟩

/-- The entry loop of `RegionMetaBuilder::apply_region_meta_snapshot`:
inserting an entry whose `table_id` is already present is a `Build` error. -/
def applySnapshotEntries (b : RegionMetaBuilder) :
    List TableMetaData → Except RMError RegionMetaBuilder
  | [] => Except.ok b
  | d :: rest =>
      match alGet b.table_metas d.table_id with
      | some _ => Except.error RMError.Build
      | none =>
          applySnapshotEntries
            ⟨alInsert b.table_metas d.table_id (tableMetaInnerOfData d)⟩ rest

def RegionMetaBuilder.apply_region_meta_snapshot (b : RegionMetaBuilder)
    (snapshot : RegionMetaSnapshot) : Except RMError RegionMetaBuilder :=
  applySnapshotEntries b snapshot.entries

structure RegionMetaDelta where
  table_id : Nat
  sequence_num : Nat
  offset : Int
deriving DecidableEq

/-- `RegionMetaBuilder::apply_region_meta_delta`: fetch or create the
entry, require strict advance of both `next_sequence_num` and the high
watermark, update both and record `(sequence_num, offset)` in the mapping.
The `sequence_num + 1` is `u64` (wrapping) and `offset + 1` is `i64`
(wrapping), as in the source's release builds.
(On the failing paths the source has already partially mutated the entry;
the claims below only use all-successful replays, so the error value here
carries no state.) -/
def RegionMetaBuilder.apply_region_meta_delta (b : RegionMetaBuilder)
    (delta : RegionMetaDelta) : Except RMError RegionMetaBuilder :=
  let m := (alGet b.table_metas delta.table_id).getD TableMetaInner.default
  if m.next_sequence_num < (delta.sequence_num + 1) % 2 ^ 64 then
    if m.current_high_watermark < wrapI64 (delta.offset + 1) then
      Except.ok ⟨alInsert b.table_metas delta.table_id
        { m with
            next_sequence_num := (delta.sequence_num + 1) % 2 ^ 64,
            current_high_watermark := wrapI64 (delta.offset + 1),
            start_sequence_offset_mapping :=
              m.start_sequence_offset_mapping.insert delta.sequence_num
                delta.offset }⟩
    else Except.error RMError.Build
  else Except.error RMError.Build

/-- `RegionMetaBuilder::build`. -/
def RegionMetaBuilder.build (b : RegionMetaBuilder) : RegionMeta :=
  ⟨b.table_metas⟩

/-- One registry operation of the public mutating interface. -/
inductive RegistryOp
  | prepare (table_id : Nat)
  | update (table_id : Nat) (ostart oend : Int)
  | mark (table_id : Nat) (sequence_num : Nat)
deriving DecidableEq

/-- Apply one operation; a failing operation leaves the registry unchanged
(the source's error paths mutate nothing). -/
def RegionMeta.applyOp (s : RegionMeta) : RegistryOp → RegionMeta
  | RegistryOp.prepare tid => (s.prepare_for_table_write tid).2
  | RegistryOp.update tid a b =>
      match s.update_after_table_write tid a b with
      | Except.ok s2 => s2
      | Except.error _ => s
  | RegistryOp.mark tid q =>
      match s.mark_table_deleted tid q with
      | Except.ok s2 => s2
      | Except.error _ => s

def RegionMeta.applyOps (s : RegionMeta) (ops : List RegistryOp) : RegionMeta :=
  ops.foldl RegionMeta.applyOp s

theorem alGet_nil {α : Type} (k : Nat) : alGet ([] : List (Nat × α)) k = none := rfl

theorem alGet_insert_self {α : Type} (l : List (Nat × α)) (k : Nat) (v : α) :
    alGet (alInsert l k v) k = some v := by
  simp [alGet, alInsert]

theorem find?_filter_ne {α : Type} (l : List (Nat × α)) (k q : Nat) (h : q ≠ k) :
    (l.filter (fun p => p.1 != k)).find? (fun p => p.1 == q) =
      l.find? (fun p => p.1 == q) := by
  induction l with
  | nil => rfl
  | cons p t ih =>
      by_cases hp : p.1 = k
      · rw [List.filter_cons_of_neg (by simp [hp]),
          List.find?_cons_of_neg _ (by simp [hp]; omega), ih]
      · rw [List.filter_cons_of_pos (by simp [hp])]
        by_cases hq : p.1 = q
        · rw [List.find?_cons_of_pos _ (by simp [hq]),
            List.find?_cons_of_pos _ (by simp [hq])]
        · rw [List.find?_cons_of_neg _ (by simp [hq]),
            List.find?_cons_of_neg _ (by simp [hq]), ih]

theorem alGet_insert_ne {α : Type} (l : List (Nat × α)) (k q : Nat) (v : α)
    (h : q ≠ k) : alGet (alInsert l k v) q = alGet l q := by
  simp only [alGet, alInsert]
  rw [List.find?_cons_of_neg _ (by simp [Ne.symm h]), find?_filter_ne l k q h]

theorem alGet_eq_none_of_not_mem {α : Type} (l : List (Nat × α)) (k : Nat)
    (h : k ∉ l.map Prod.fst) : alGet l k = none := by
  simp only [alGet]
  have hfind : l.find? (fun p => p.1 == k) = none := by
    rw [List.find?_eq_none]
    intro p hp
    simp only [beq_iff_eq]
    intro hk
    exact h (hk ▸ List.mem_map_of_mem Prod.fst hp)
  rw [hfind]
  rfl

/-! ### Wrap-free reductions

Under explicit no-overflow bounds, the wrapping arithmetic of
`TableMeta::update_after_write` and `apply_region_meta_delta` coincides
with plain arithmetic; the amended theorems below carry exactly those
bounds. -/

theorem wrapI64_eq_self (x : Int) (h1 : I64_MIN ≤ x) (h2 : x ≤ I64_MAX) :
    wrapI64 x = x := by
  unfold wrapI64
  unfold I64_MIN at h1
  unfold I64_MAX at h2
  omega

theorem i64ToU64_wrapI64 (x : Int) (h1 : 0 ≤ x) (h2 : x < 2 ^ 64) :
    i64ToU64 (wrapI64 x) = x.toNat := by
  unfold i64ToU64 wrapI64
  omega

/-- On inputs where no `i64`/`u64` arithmetic wraps, `update_after_write`
acts by plain arithmetic. -/
theorem update_after_write_no_wrap (m : TableMetaInner) (a b : Int)
    (ha : I64_MIN ≤ a) (hab : a ≤ b) (hb : b < I64_MAX)
    (hnof : m.next_sequence_num + (b - a + 1).toNat < 2 ^ 64) :
    TableMeta.update_after_write m a b =
      { m with
          next_sequence_num := m.next_sequence_num + (b - a + 1).toNat,
          start_sequence_offset_mapping :=
            m.start_sequence_offset_mapping.insert m.next_sequence_num a,
          current_high_watermark := b + 1 } := by
  have hspan : i64ToU64 (wrapI64 (b - a + 1)) = (b - a + 1).toNat := by
    apply i64ToU64_wrapI64
    · omega
    · unfold I64_MIN at ha
      unfold I64_MAX at hb
      omega
  simp only [TableMeta.update_after_write, hspan]
  congr 1
  · exact Nat.mod_eq_of_lt hnof
  · apply wrapI64_eq_self
    · unfold I64_MIN at ha ⊢
      omega
    · unfold I64_MAX at hb ⊢
      omega

/-! ### Meta-registry theorems (C7, C10) -/

/-- C7 counterexample: at the full-span i64 range
`(start, end) = (i64::MIN, i64::MAX)` — a valid `OffsetRange` with
`start ≤ end` — the source's `(end - start + 1) as u64` is `0` (the `i64`
difference wraps), so `next_sequence_num` increases by `0` and not by
`end − start + 1 = 2^64`; and `end + 1` wraps, so the high watermark
becomes `i64::MIN`, not `end + 1`. -/
theorem c7_update_after_write_counterexample :
    Except.map
        (fun s2 : RegionMeta => (alGet s2.table_metas 0).map
          (fun m2 => (m2.next_sequence_num, m2.current_high_watermark)))
        (RegionMeta.update_after_table_write ⟨[(0, TableMetaInner.default)]⟩ 0
          I64_MIN I64_MAX) =
      Except.ok (some (0, I64_MIN)) ∧
    (0 : Int) ≠ I64_MAX - I64_MIN + 1 ∧
    I64_MIN ≠ I64_MAX + 1 := by
  refine ⟨rfl, by decide, by decide⟩

/-- C7 amended: on a table with an existing entry,
`update_after_table_write` with `start ≤ end` — provided additionally that
no machine arithmetic wraps (`start`, `end + 1` within i64 range and
`next_sequence_num + (end − start + 1)` below `2^64`) — records the
mapping `old_next_sequence_num → start` (leaving every other mapping key
unchanged), advances `next_sequence_num` by exactly `end − start + 1`,
and sets `current_high_watermark` to `end + 1`; with `start > end` it
fails with `UpdateAfterWrite`. -/
theorem c7_update_after_write_postcondition (s : RegionMeta) (table_id : Nat)
    (m : TableMetaInner) (ostart oend : Int)
    (hm : alGet s.table_metas table_id = some m) :
    (I64_MIN ≤ ostart → ostart ≤ oend → oend < I64_MAX →
      m.next_sequence_num + (oend - ostart + 1).toNat < 2 ^ 64 →
      ∃ s2 : RegionMeta,
        s.update_after_table_write table_id ostart oend = Except.ok s2 ∧
        ∃ m2 : TableMetaInner, alGet s2.table_metas table_id = some m2 ∧
          m2.start_sequence_offset_mapping m.next_sequence_num = some ostart ∧
          (∀ k, k ≠ m.next_sequence_num →
            m2.start_sequence_offset_mapping k =
              m.start_sequence_offset_mapping k) ∧
          (m2.next_sequence_num : Int) =
            m.next_sequence_num + (oend - ostart + 1) ∧
          m2.current_high_watermark = oend + 1 ∧
          m2.latest_marked_deleted = m.latest_marked_deleted) ∧
    (oend < ostart →
      s.update_after_table_write table_id ostart oend =
        Except.error (RMError.UpdateAfterWrite table_id)) := by
  constructor
  · intro ha hab hb hnof
    have hok : s.update_after_table_write table_id ostart oend =
        Except.ok ⟨alInsert s.table_metas table_id
          (TableMeta.update_after_write m ostart oend)⟩ := by
      simp [RegionMeta.update_after_table_write, if_pos hab, hm]
    rw [update_after_write_no_wrap m ostart oend ha hab hb hnof] at hok
    refine ⟨_, hok,
      { m with
          next_sequence_num := m.next_sequence_num + (oend - ostart + 1).toNat,
          start_sequence_offset_mapping :=
            m.start_sequence_offset_mapping.insert m.next_sequence_num ostart,
          current_high_watermark := oend + 1 },
      alGet_insert_self _ _ _, ?_, ?_, ?_, ?_, ?_⟩
    · simp [OffMap.insert]
    · intro k hk
      simp [OffMap.insert, hk]
    · push_cast [Int.toNat_of_nonneg (by omega : (0 : Int) ≤ oend - ostart + 1)]
      ring
    · rfl
    · rfl
  · intro hba
    simp [RegionMeta.update_after_table_write, if_neg (by omega : ¬ ostart ≤ oend)]

/-- C7 witness: the first update of the repository registry test, with all
no-wrap bounds discharged concretely. -/
theorem c7_update_after_write_postcondition_witness :
    (I64_MIN ≤ (20 : Int) → (20 : Int) ≤ 29 → (29 : Int) < I64_MAX →
      TableMetaInner.default.next_sequence_num + ((29 : Int) - 20 + 1).toNat <
        2 ^ 64 →
      ∃ s2 : RegionMeta,
        RegionMeta.update_after_table_write ⟨[(0, TableMetaInner.default)]⟩ 0 20 29 =
          Except.ok s2 ∧
        ∃ m2 : TableMetaInner, alGet s2.table_metas 0 = some m2 ∧
          m2.start_sequence_offset_mapping TableMetaInner.default.next_sequence_num =
            some 20 ∧
          (∀ k, k ≠ TableMetaInner.default.next_sequence_num →
            m2.start_sequence_offset_mapping k =
              TableMetaInner.default.start_sequence_offset_mapping k) ∧
          (m2.next_sequence_num : Int) =
            TableMetaInner.default.next_sequence_num + (29 - 20 + 1) ∧
          m2.current_high_watermark = 29 + 1 ∧
          m2.latest_marked_deleted = TableMetaInner.default.latest_marked_deleted) ∧
    ((29 : Int) < 20 →
      RegionMeta.update_after_table_write ⟨[(0, TableMetaInner.default)]⟩ 0 20 29 =
        Except.error (RMError.UpdateAfterWrite 0)) :=
  c7_update_after_write_postcondition ⟨[(0, TableMetaInner.default)]⟩ 0
    TableMetaInner.default 20 29 rfl

/-- C10: on a table id with no registry entry, `update_after_table_write`
fails with `UpdateAfterWrite`, `mark_table_deleted` fails with
`MarkDeleted`, and neither creates an entry nor changes the registry. -/
theorem c10_unknown_table_rejection (s : RegionMeta) (table_id : Nat)
    (ostart oend : Int) (sequence_num : Nat)
    (h : alGet s.table_metas table_id = none) :
    s.update_after_table_write table_id ostart oend =
      Except.error (RMError.UpdateAfterWrite table_id) ∧
    s.mark_table_deleted table_id sequence_num =
      Except.error (RMError.MarkDeleted table_id) ∧
    s.applyOp (RegistryOp.update table_id ostart oend) = s ∧
    s.applyOp (RegistryOp.mark table_id sequence_num) = s := by
  have h1 : s.update_after_table_write table_id ostart oend =
      Except.error (RMError.UpdateAfterWrite table_id) := by
    by_cases hab : ostart ≤ oend
    · simp [RegionMeta.update_after_table_write, if_pos hab, h]
    · simp [RegionMeta.update_after_table_write, if_neg hab]
  have h2 : s.mark_table_deleted table_id sequence_num =
      Except.error (RMError.MarkDeleted table_id) := by
    simp [RegionMeta.mark_table_deleted, h]
  refine ⟨h1, h2, ?_, ?_⟩
  · simp [RegionMeta.applyOp, h1]
  · simp [RegionMeta.applyOp, h2]

/-- C10 witness: table id `5` on a registry holding only table `0`. -/
theorem c10_unknown_table_rejection_witness :
    RegionMeta.update_after_table_write ⟨[(0, TableMetaInner.default)]⟩ 5 20 29 =
      Except.error (RMError.UpdateAfterWrite 5) ∧
    RegionMeta.mark_table_deleted ⟨[(0, TableMetaInner.default)]⟩ 5 3 =
      Except.error (RMError.MarkDeleted 5) ∧
    RegionMeta.applyOp ⟨[(0, TableMetaInner.default)]⟩ (RegistryOp.update 5 20 29) =
      ⟨[(0, TableMetaInner.default)]⟩ ∧
    RegionMeta.applyOp ⟨[(0, TableMetaInner.default)]⟩ (RegistryOp.mark 5 3) =
      ⟨[(0, TableMetaInner.default)]⟩ :=
  c10_unknown_table_rejection ⟨[(0, TableMetaInner.default)]⟩ 5 20 29 3 rfl

/-- C2 counterexample: after `prepare(0)`, `update(0, [20, 29])` (so
`next_sequence_num = 10` and the mapping holds only the key `0`) and
`mark_table_deleted(0, 5)` — a mark at a mid-batch sequence, which the
source accepts — the table has `next_sequence_num = 10 >
latest_marked_deleted = 5` but no mapping entry at `5`: invariant I2 is
violated (and `get_meta_data` would hit its panicking assertion). -/
theorem c2_invariant_counterexample :
    (alGet (RegionMeta.applyOps RegionMeta.init
        [RegistryOp.prepare 0, RegistryOp.update 0 20 29,
         RegistryOp.mark 0 5]).table_metas 0).map
      (fun m => (m.next_sequence_num, m.latest_marked_deleted,
        m.start_sequence_offset_mapping m.latest_marked_deleted)) =
      some (10, 5, none) ∧
    (5 : Nat) < 10 := by
  constructor
  · rfl
  · norm_num

/-- C9 counterexample: `update(0, [20, 29])` then `update(0, [10, 19])`
drops the high watermark from `30` to `20`, although the largest offset
ever written is `29`; the code sets `current_high_watermark = end + 1`
unconditionally. -/
theorem c9_high_watermark_counterexample :
    (RegionMeta.applyOps RegionMeta.init
        [RegistryOp.prepare 0, RegistryOp.update 0 20 29]).get_table_meta_data 0 =
      Except.ok ⟨0, 10, 0, 30, some 20⟩ ∧
    (RegionMeta.applyOps RegionMeta.init
        [RegistryOp.prepare 0, RegistryOp.update 0 20 29,
         RegistryOp.update 0 10 19]).get_table_meta_data 0 =
      Except.ok ⟨0, 20, 0, 20, some 20⟩ ∧
    (20 : Int) < 30 ∧ (20 : Int) ≠ 29 + 1 := by
  refine ⟨rfl, rfl, by norm_num, by norm_num⟩

/-! ### High watermark (C9) -/

/-- Fold a list of successful writes (offset ranges) over one table. -/
def applyWrites (m : TableMetaInner) : List (Int × Int) → TableMetaInner
  | [] => m
  | p :: rest => applyWrites (TableMeta.update_after_write m p.1 p.2) rest

/-- Each range is nonempty, lies within the i64 offset domain without
`end + 1` overflowing, and starts at or past the current high watermark —
the discipline a message queue's monotone offsets provide. -/
def writesGoodFrom (hwm : Int) : List (Int × Int) → Bool
  | [] => true
  | p :: rest =>
      (decide (I64_MIN ≤ p.1) && decide (hwm ≤ p.1) && decide (p.1 ≤ p.2) &&
        decide (p.2 < I64_MAX)) && writesGoodFrom (p.2 + 1) rest

/-- The high watermark after each successive write. -/
def hwmTrace (m : TableMetaInner) : List (Int × Int) → List Int
  | [] => []
  | p :: rest =>
      (TableMeta.update_after_write m p.1 p.2).current_high_watermark ::
        hwmTrace (TableMeta.update_after_write m p.1 p.2) rest

/-- C9 amended: provided successive writes carry monotonically increasing
queue offsets within the i64 domain (each write starting at or past the
current high watermark, with `end + 1` not overflowing i64), after every
write the high watermark equals one past the largest offset ever written
(folded max, seeded by the initial watermark) and the watermark never
decreases across calls. -/
theorem c9_high_watermark_amended (m : TableMetaInner) (writes : List (Int × Int))
    (hgood : writesGoodFrom m.current_high_watermark writes = true) :
    (applyWrites m writes).current_high_watermark =
      writes.foldl (fun acc p => max acc (p.2 + 1)) m.current_high_watermark ∧
    List.Chain' (· ≤ ·) (m.current_high_watermark :: hwmTrace m writes) := by
  induction writes generalizing m with
  | nil => simp [applyWrites, hwmTrace]
  | cons p rest ih =>
      simp only [writesGoodFrom, Bool.and_eq_true, decide_eq_true_eq] at hgood
      obtain ⟨⟨⟨⟨ha, h1⟩, h2⟩, h4⟩, h3⟩ := hgood
      have hm2hwm : (TableMeta.update_after_write m p.1 p.2).current_high_watermark =
          p.2 + 1 := by
        simp only [TableMeta.update_after_write]
        apply wrapI64_eq_self
        · unfold I64_MIN at ha ⊢
          omega
        · unfold I64_MAX at h4 ⊢
          omega
      have hrec := ih (TableMeta.update_after_write m p.1 p.2)
        (by rw [hm2hwm]; exact h3)
      constructor
      · simp only [applyWrites, List.foldl_cons]
        rw [hrec.1, hm2hwm]
        have hmax : max m.current_high_watermark (p.2 + 1) = p.2 + 1 := by omega
        rw [hmax]
      · simp only [hwmTrace]
        rw [List.chain'_cons]
        exact ⟨by omega, hrec.2⟩

/-- C9 witness: two monotone writes over a fresh table. -/
theorem c9_high_watermark_amended_witness :
    (applyWrites TableMetaInner.default [(20, 29), (42, 51)]).current_high_watermark =
      [((20 : Int), (29 : Int)), (42, 51)].foldl (fun acc p => max acc (p.2 + 1))
        TableMetaInner.default.current_high_watermark ∧
    List.Chain' (· ≤ ·) (TableMetaInner.default.current_high_watermark ::
      hwmTrace TableMetaInner.default [(20, 29), (42, 51)]) :=
  c9_high_watermark_amended TableMetaInner.default [(20, 29), (42, 51)] rfl

/-! ### Meta invariants (C2) -/

/-- Inductive invariant for one table: I1, I2, and the bound that every
mapping key (a recorded batch start) lies below `next_sequence_num`. -/
def TableInv (m : TableMetaInner) : Prop :=
  m.latest_marked_deleted ≤ m.next_sequence_num ∧
  (m.latest_marked_deleted < m.next_sequence_num →
    (m.start_sequence_offset_mapping m.latest_marked_deleted).isSome = true) ∧
  (∀ k, (m.start_sequence_offset_mapping k).isSome = true → k < m.next_sequence_num)

def RegionInv (s : RegionMeta) : Prop :=
  ∀ tid m, alGet s.table_metas tid = some m → TableInv m

/-- A mark is at a batch boundary: the marked sequence is the current
`next_sequence_num` or a recorded batch start — or the mark fails anyway. -/
def markSafe (s : RegionMeta) (table_id sequence_num : Nat) : Bool :=
  match alGet s.table_metas table_id with
  | none => true
  | some m =>
      !(decide (sequence_num ≤ m.next_sequence_num) &&
        decide (m.latest_marked_deleted ≤ sequence_num)) ||
      (decide (sequence_num = m.next_sequence_num) ||
        (m.start_sequence_offset_mapping sequence_num).isSome)

/-- A write wraps no machine arithmetic: its offsets are valid i64 with
`end + 1` in range and the `u64` sequence counter does not overflow — or
the write fails anyway. -/
def updateGood (s : RegionMeta) (table_id : Nat) (ostart oend : Int) : Bool :=
  match alGet s.table_metas table_id with
  | none => true
  | some m =>
      !(decide (ostart ≤ oend)) ||
      (decide (I64_MIN ≤ ostart) && decide (oend < I64_MAX) &&
        decide (m.next_sequence_num + (oend - ostart + 1).toNat < 2 ^ 64))

/-- Every mark in the trace is at a batch boundary and every write is
wrap-free. -/
def opsGood (s : RegionMeta) : List RegistryOp → Bool
  | [] => true
  | op :: rest =>
      (match op with
       | RegistryOp.mark tid q => markSafe s tid q
       | RegistryOp.update tid a b => updateGood s tid a b
       | _ => true) && opsGood (s.applyOp op) rest

theorem updateGood_bounds (s : RegionMeta) (tid : Nat) (a b : Int)
    (m : TableMetaInner) (hm : alGet s.table_metas tid = some m) (hab : a ≤ b)
    (hug : updateGood s tid a b = true) :
    I64_MIN ≤ a ∧ b < I64_MAX ∧
    m.next_sequence_num + (b - a + 1).toNat < 2 ^ 64 := by
  unfold updateGood at hug
  rw [hm] at hug
  simp only [Bool.or_eq_true, Bool.not_eq_true', decide_eq_false_iff_not,
    Bool.and_eq_true, decide_eq_true_eq] at hug
  rcases hug with hbad | hok
  · exact absurd hab hbad
  · exact ⟨hok.1.1, hok.1.2, hok.2⟩

theorem tableInv_default : TableInv TableMetaInner.default := by
  refine ⟨Nat.le_refl 0, ?_, ?_⟩ <;>
    simp [TableMetaInner.default, OffMap.empty]

theorem tableInv_update (m : TableMetaInner) (a b : Int) (ha : I64_MIN ≤ a)
    (hab : a ≤ b) (hb : b < I64_MAX)
    (hnof : m.next_sequence_num + (b - a + 1).toNat < 2 ^ 64)
    (hinv : TableInv m) : TableInv (TableMeta.update_after_write m a b) := by
  obtain ⟨h1, h2, h3⟩ := hinv
  have hn : 1 ≤ (b - a + 1).toNat := by omega
  rw [update_after_write_no_wrap m a b ha hab hb hnof]
  simp only [TableInv, OffMap.insert]
  refine ⟨by omega, ?_, ?_⟩
  · intro _
    by_cases hc : m.latest_marked_deleted = m.next_sequence_num
    · rw [if_pos hc]
      rfl
    · rw [if_neg hc]
      exact h2 (lt_of_le_of_ne h1 hc)
  · intro k hk
    by_cases hc : k = m.next_sequence_num
    · omega
    · rw [if_neg hc] at hk
      have := h3 k hk
      omega

theorem tableInv_mark (table_id : Nat) (m : TableMetaInner) (q : Nat)
    (m2 : TableMetaInner) (hinv : TableInv m)
    (hsafe : q = m.next_sequence_num ∨
      (m.start_sequence_offset_mapping q).isSome = true)
    (hok : TableMeta.mark_deleted table_id m q = Except.ok m2) : TableInv m2 := by
  obtain ⟨h1, h2, h3⟩ := hinv
  unfold TableMeta.mark_deleted at hok
  split_ifs at hok with hq1 hq2
  · injection hok with hok
    subst hok
    refine ⟨hq1, ?_, ?_⟩
    · intro hlt
      dsimp only [OffMap.retainGe] at hlt ⊢
      rw [if_pos (Nat.le_refl q)]
      rcases hsafe with hq | hq
      · exact absurd hlt (by omega)
      · exact hq
    · intro k hk
      dsimp only [OffMap.retainGe] at hk ⊢
      by_cases hge : q ≤ k
      · rw [if_pos hge] at hk
        exact h3 k hk
      · rw [if_neg hge] at hk
        simp at hk

theorem regionInv_insert (s : RegionMeta) (tid : Nat) (m2 : TableMetaInner)
    (hinv : RegionInv s) (hm2 : TableInv m2) :
    RegionInv ⟨alInsert s.table_metas tid m2⟩ := by
  intro tid2 m3 hm3
  by_cases hc : tid2 = tid
  · subst hc
    rw [alGet_insert_self] at hm3
    injection hm3 with hm3
    exact hm3 ▸ hm2
  · rw [alGet_insert_ne _ _ _ _ hc] at hm3
    exact hinv tid2 m3 hm3

theorem regionInv_applyOp (s : RegionMeta) (op : RegistryOp) (hinv : RegionInv s)
    (hmark : ∀ tid q, op = RegistryOp.mark tid q → markSafe s tid q = true)
    (hupd : ∀ tid a b, op = RegistryOp.update tid a b →
      updateGood s tid a b = true) :
    RegionInv (s.applyOp op) := by
  cases op with
  | prepare tid =>
      cases halget : alGet s.table_metas tid with
      | some m =>
          have happly : s.applyOp (RegistryOp.prepare tid) = s := by
            simp [RegionMeta.applyOp, RegionMeta.prepare_for_table_write, halget]
          rw [happly]
          exact hinv
      | none =>
          have happly : s.applyOp (RegistryOp.prepare tid) =
              ⟨alInsert s.table_metas tid TableMetaInner.default⟩ := by
            simp [RegionMeta.applyOp, RegionMeta.prepare_for_table_write, halget]
          rw [happly]
          exact regionInv_insert s tid _ hinv tableInv_default
  | update tid a b =>
      by_cases hab : a ≤ b
      · cases halget : alGet s.table_metas tid with
        | none =>
            have happly : s.applyOp (RegistryOp.update tid a b) = s := by
              simp [RegionMeta.applyOp, RegionMeta.update_after_table_write,
                if_pos hab, halget]
            rw [happly]
            exact hinv
        | some m =>
            have happly : s.applyOp (RegistryOp.update tid a b) =
                ⟨alInsert s.table_metas tid (TableMeta.update_after_write m a b)⟩ := by
              simp [RegionMeta.applyOp, RegionMeta.update_after_table_write,
                if_pos hab, halget]
            rw [happly]
            obtain ⟨hga, hgb, hgn⟩ :=
              updateGood_bounds s tid a b m halget hab (hupd tid a b rfl)
            exact regionInv_insert s tid _ hinv
              (tableInv_update m a b hga hab hgb hgn (hinv _ m halget))
      · have happly : s.applyOp (RegistryOp.update tid a b) = s := by
          simp [RegionMeta.applyOp, RegionMeta.update_after_table_write, if_neg hab]
        rw [happly]
        exact hinv
  | mark tid q =>
      cases halget : alGet s.table_metas tid with
      | none =>
          have happly : s.applyOp (RegistryOp.mark tid q) = s := by
            simp [RegionMeta.applyOp, RegionMeta.mark_table_deleted, halget]
          rw [happly]
          exact hinv
      | some m =>
          cases hmk : TableMeta.mark_deleted tid m q with
          | error e =>
              have happly : s.applyOp (RegistryOp.mark tid q) = s := by
                simp [RegionMeta.applyOp, RegionMeta.mark_table_deleted, halget, hmk]
              rw [happly]
              exact hinv
          | ok m2 =>
              have happly : s.applyOp (RegistryOp.mark tid q) =
                  ⟨alInsert s.table_metas tid m2⟩ := by
                simp [RegionMeta.applyOp, RegionMeta.mark_table_deleted, halget, hmk]
              have hbound : q ≤ m.next_sequence_num ∧
                  m.latest_marked_deleted ≤ q := by
                unfold TableMeta.mark_deleted at hmk
                split_ifs at hmk with hq1 hq2
                exact ⟨hq1, hq2⟩
              have hsafe : q = m.next_sequence_num ∨
                  (m.start_sequence_offset_mapping q).isSome = true := by
                have hms := hmark tid q rfl
                unfold markSafe at hms
                rw [halget] at hms
                simp only [Bool.or_eq_true, Bool.not_eq_true',
                  Bool.and_eq_false_iff, decide_eq_false_iff_not,
                  decide_eq_true_eq] at hms
                rcases hms with hbad | hgood2
                · rcases hbad with hbad | hbad
                  · exact absurd hbound.1 hbad
                  · exact absurd hbound.2 hbad
                · exact hgood2
              rw [happly]
              exact regionInv_insert s tid _ hinv
                (tableInv_mark tid m q m2 (hinv _ m halget) hsafe hmk)

theorem regionInv_applyOps (ops : List RegistryOp) :
    ∀ s : RegionMeta, RegionInv s → opsGood s ops = true →
      RegionInv (s.applyOps ops) := by
  induction ops with
  | nil => exact fun s h _ => h
  | cons op rest ih =>
      intro s hinv hgood
      simp only [opsGood, Bool.and_eq_true] at hgood
      have hstep := regionInv_applyOp s op hinv
        (by
          intro tid q hop
          subst hop
          exact hgood.1)
        (by
          intro tid a b hop
          subst hop
          exact hgood.1)
      exact ih (s.applyOp op) hstep hgood.2

theorem regionInv_init : RegionInv RegionMeta.init := by
  intro tid m hm
  simp [RegionMeta.init, alGet_nil] at hm

/-- C2 amended: over any operation trace from the empty registry in which
every (successful) mark is at a batch boundary — the marked sequence is the
table's `next_sequence_num` or a recorded batch start — and every write is
wrap-free (offsets within the i64 domain, sequence advance below `2^64`),
every table entry satisfies, after every operation: (I1)
`latest_marked_deleted ≤ next_sequence_num`; (I2) if
`next_sequence_num > latest_marked_deleted` the mapping holds an entry at
`latest_marked_deleted`; (I3) if they are equal the safe delete offset is
`none`; and `get_table_meta_data` returns `safe_delete_offset = none` iff
`next_sequence_num = latest_marked_deleted`, otherwise the (present)
mapping entry at `latest_marked_deleted`. -/
theorem c2_meta_invariants_amended (ops : List RegistryOp)
    (hgood : opsGood RegionMeta.init ops = true) (table_id : Nat)
    (m : TableMetaInner)
    (hm : alGet (RegionMeta.applyOps RegionMeta.init ops).table_metas table_id =
      some m) :
    m.latest_marked_deleted ≤ m.next_sequence_num ∧
    (m.latest_marked_deleted < m.next_sequence_num →
      (m.start_sequence_offset_mapping m.latest_marked_deleted).isSome = true) ∧
    (m.next_sequence_num = m.latest_marked_deleted →
      (TableMeta.get_meta_data table_id m).safe_delete_offset = none) ∧
    (RegionMeta.applyOps RegionMeta.init ops).get_table_meta_data table_id =
      Except.ok (TableMeta.get_meta_data table_id m) ∧
    ((TableMeta.get_meta_data table_id m).safe_delete_offset = none ↔
      m.next_sequence_num = m.latest_marked_deleted) ∧
    (m.next_sequence_num ≠ m.latest_marked_deleted →
      (TableMeta.get_meta_data table_id m).safe_delete_offset =
        m.start_sequence_offset_mapping m.latest_marked_deleted ∧
      ((TableMeta.get_meta_data table_id m).safe_delete_offset).isSome = true) := by
  obtain ⟨h1, h2, h3⟩ :=
    regionInv_applyOps ops RegionMeta.init regionInv_init hgood table_id m hm
  refine ⟨h1, h2, ?_, ?_, ?_, ?_⟩
  · intro heq
    simp [TableMeta.get_meta_data, heq]
  · simp [RegionMeta.get_table_meta_data, hm]
  · by_cases heq : m.next_sequence_num = m.latest_marked_deleted
    · simp [TableMeta.get_meta_data, heq]
    · have hlt : m.latest_marked_deleted < m.next_sequence_num :=
        lt_of_le_of_ne h1 (fun hh => heq hh.symm)
      have hsome := h2 hlt
      simp only [TableMeta.get_meta_data, if_neg heq]
      constructor
      · intro hnone
        rw [hnone] at hsome
        simp at hsome
      · intro hh
        exact absurd hh heq
  · intro hne
    have hlt : m.latest_marked_deleted < m.next_sequence_num :=
      lt_of_le_of_ne h1 (fun hh => hne hh.symm)
    simp only [TableMeta.get_meta_data, if_neg hne]
    exact ⟨trivial, h2 hlt⟩

/-- The table state reached by `prepare(0)`, `update(0, [20, 29])`,
`mark(0, 10)`. -/
def c2WitnessTable : TableMetaInner :=
  { next_sequence_num := 10, latest_marked_deleted := 10,
    current_high_watermark := 30,
    start_sequence_offset_mapping :=
      OffMap.retainGe (OffMap.insert OffMap.empty 0 20) 10 }

/-- C2 witness: a prepare, one write, and a boundary mark at the write's
end. -/
theorem c2_meta_invariants_amended_witness :
    c2WitnessTable.latest_marked_deleted ≤ c2WitnessTable.next_sequence_num ∧
    (c2WitnessTable.latest_marked_deleted < c2WitnessTable.next_sequence_num →
      (c2WitnessTable.start_sequence_offset_mapping
        c2WitnessTable.latest_marked_deleted).isSome = true) ∧
    (c2WitnessTable.next_sequence_num = c2WitnessTable.latest_marked_deleted →
      (TableMeta.get_meta_data 0 c2WitnessTable).safe_delete_offset = none) ∧
    (RegionMeta.applyOps RegionMeta.init
        [RegistryOp.prepare 0, RegistryOp.update 0 20 29,
         RegistryOp.mark 0 10]).get_table_meta_data 0 =
      Except.ok (TableMeta.get_meta_data 0 c2WitnessTable) ∧
    ((TableMeta.get_meta_data 0 c2WitnessTable).safe_delete_offset = none ↔
      c2WitnessTable.next_sequence_num = c2WitnessTable.latest_marked_deleted) ∧
    (c2WitnessTable.next_sequence_num ≠ c2WitnessTable.latest_marked_deleted →
      (TableMeta.get_meta_data 0 c2WitnessTable).safe_delete_offset =
        c2WitnessTable.start_sequence_offset_mapping
          c2WitnessTable.latest_marked_deleted ∧
      ((TableMeta.get_meta_data 0 c2WitnessTable).safe_delete_offset).isSome =
        true) :=
  c2_meta_invariants_amended
    [RegistryOp.prepare 0, RegistryOp.update 0 20 29, RegistryOp.mark 0 10]
    rfl 0 c2WitnessTable rfl

/-! ### Snapshot + delta recovery (C1) -/

/-- Modelled from the spec: the message-queue WAL region (its `region.rs`
is not under `src/`) emits one `RegionMetaDelta` — a
`(table_id, sequence, offset)` observation — per log record written after
the snapshot.  A write committed by
`update_after_table_write(table_id, [start, end])` on a table whose
`next_sequence_num` is `s` stands for the records with sequences
`s, s + 1, …` at queue offsets `start, start + 1, …, end`, so it emits the
deltas `(table_id, s + i, start + i)` for `i < end − start + 1`, in log
order.  `prepare_for_table_write` and `mark_table_deleted` write no record
and emit no delta. -/
def deltasOfOp (s : RegionMeta) : RegistryOp → List RegionMetaDelta
  | RegistryOp.update tid a b =>
      match alGet s.table_metas tid with
      | some m =>
          if a ≤ b then
            (List.range (b - a + 1).toNat).map
              (fun i => ⟨tid, m.next_sequence_num + i, a + i⟩)
          else []
      | none => []
  | _ => []

def deltasOfOps (s : RegionMeta) : List RegistryOp → List RegionMetaDelta
  | [] => []
  | op :: rest => deltasOfOp s op ++ deltasOfOps (s.applyOp op) rest

def applyDeltas (b : RegionMetaBuilder) :
    List RegionMetaDelta → Except RMError RegionMetaBuilder
  | [] => Except.ok b
  | d :: rest =>
      match b.apply_region_meta_delta d with
      | Except.error e => Except.error e
      | Except.ok b2 => applyDeltas b2 rest

/-- Post-snapshot operations covered by the amended claim: successful
wrap-free writes only (the table exists, the range is nonempty and within
the i64 offset domain with `end + 1` in range, its offsets continue at or
past the table's current high watermark, and the `u64` sequence counter
does not overflow). -/
def suffixGood (s : RegionMeta) : List RegistryOp → Bool
  | [] => true
  | RegistryOp.update tid a b :: rest =>
      (match alGet s.table_metas tid with
       | some m =>
           decide (a ≤ b) && decide (I64_MIN ≤ a) && decide (b < I64_MAX) &&
           decide (m.current_high_watermark ≤ a) &&
           decide (m.next_sequence_num + (b - a + 1).toNat < 2 ^ 64)
       | none => false) &&
      suffixGood (s.applyOp (RegistryOp.update tid a b)) rest
  | _ => false

theorem applyDeltas_append (b : RegionMetaBuilder) (l1 l2 : List RegionMetaDelta) :
    applyDeltas b (l1 ++ l2) =
      match applyDeltas b l1 with
      | Except.ok b2 => applyDeltas b2 l2
      | Except.error e => Except.error e := by
  induction l1 generalizing b with
  | nil => simp [applyDeltas]
  | cons d rest ih =>
      simp only [List.cons_append, applyDeltas]
      cases b.apply_region_meta_delta d with
      | error e => rfl
      | ok b2 => exact ih b2

/-- The weaker per-table invariant that holds on every reachable state,
marks at arbitrary (in-range) sequences included: I1 plus the bound that
every mapping key lies below `next_sequence_num`. -/
def TableBase (m : TableMetaInner) : Prop :=
  m.latest_marked_deleted ≤ m.next_sequence_num ∧
  (∀ k, (m.start_sequence_offset_mapping k).isSome = true → k < m.next_sequence_num)

def RegionBase (s : RegionMeta) : Prop :=
  ∀ tid m, alGet s.table_metas tid = some m → TableBase m

/-- Keys of the registry map are distinct (`HashMap` semantics). -/
def KeysNodup (s : RegionMeta) : Prop := (s.table_metas.map Prod.fst).Nodup

/-- Every `applyOp` result is the old state or a single-key insert, with
the inserted value characterised. -/
theorem applyOp_shape (s : RegionMeta) (op : RegistryOp) :
    s.applyOp op = s ∨
    (∃ tid, alGet s.table_metas tid = none ∧
      s.applyOp op = ⟨alInsert s.table_metas tid TableMetaInner.default⟩) ∨
    (∃ tid m a b, op = RegistryOp.update tid a b ∧
      alGet s.table_metas tid = some m ∧ a ≤ b ∧
      s.applyOp op =
        ⟨alInsert s.table_metas tid (TableMeta.update_after_write m a b)⟩) ∨
    (∃ tid m q m2, alGet s.table_metas tid = some m ∧
      TableMeta.mark_deleted tid m q = Except.ok m2 ∧
      s.applyOp op = ⟨alInsert s.table_metas tid m2⟩) := by
  cases op with
  | prepare tid =>
      cases halget : alGet s.table_metas tid with
      | some m =>
          exact Or.inl (by
            simp [RegionMeta.applyOp, RegionMeta.prepare_for_table_write, halget])
      | none =>
          exact Or.inr (Or.inl ⟨tid, halget, by
            simp [RegionMeta.applyOp, RegionMeta.prepare_for_table_write, halget]⟩)
  | update tid a b =>
      by_cases hab : a ≤ b
      · cases halget : alGet s.table_metas tid with
        | none =>
            exact Or.inl (by
              simp [RegionMeta.applyOp, RegionMeta.update_after_table_write,
                if_pos hab, halget])
        | some m =>
            exact Or.inr (Or.inr (Or.inl ⟨tid, m, a, b, rfl, halget, hab, by
              simp [RegionMeta.applyOp, RegionMeta.update_after_table_write,
                if_pos hab, halget]⟩))
      · exact Or.inl (by
          simp [RegionMeta.applyOp, RegionMeta.update_after_table_write, if_neg hab])
  | mark tid q =>
      cases halget : alGet s.table_metas tid with
      | none =>
          exact Or.inl (by
            simp [RegionMeta.applyOp, RegionMeta.mark_table_deleted, halget])
      | some m =>
          cases hmk : TableMeta.mark_deleted tid m q with
          | error e =>
              exact Or.inl (by
                simp [RegionMeta.applyOp, RegionMeta.mark_table_deleted, halget, hmk])
          | ok m2 =>
              exact Or.inr (Or.inr (Or.inr ⟨tid, m, q, m2, halget, hmk, by
                simp [RegionMeta.applyOp, RegionMeta.mark_table_deleted, halget,
                  hmk]⟩))

theorem tableBase_default : TableBase TableMetaInner.default := by
  refine ⟨Nat.le_refl 0, ?_⟩
  simp [TableMetaInner.default, OffMap.empty]

theorem tableBase_update (m : TableMetaInner) (a b : Int) (ha : I64_MIN ≤ a)
    (hab : a ≤ b) (hb : b < I64_MAX)
    (hnof : m.next_sequence_num + (b - a + 1).toNat < 2 ^ 64)
    (h : TableBase m) : TableBase (TableMeta.update_after_write m a b) := by
  obtain ⟨h1, h2⟩ := h
  have hn : 1 ≤ (b - a + 1).toNat := by omega
  rw [update_after_write_no_wrap m a b ha hab hb hnof]
  simp only [TableBase, OffMap.insert]
  refine ⟨by omega, ?_⟩
  intro k hk
  by_cases hc : k = m.next_sequence_num
  · omega
  · rw [if_neg hc] at hk
    have := h2 k hk
    omega

theorem tableBase_mark (table_id : Nat) (m : TableMetaInner) (q : Nat)
    (m2 : TableMetaInner) (h : TableBase m)
    (hok : TableMeta.mark_deleted table_id m q = Except.ok m2) : TableBase m2 := by
  obtain ⟨h1, h2⟩ := h
  unfold TableMeta.mark_deleted at hok
  split_ifs at hok with hq1 hq2
  injection hok with hok
  subst hok
  refine ⟨hq1, ?_⟩
  intro k hk
  dsimp only [OffMap.retainGe] at hk
  by_cases hge : q ≤ k
  · rw [if_pos hge] at hk
    exact h2 k hk
  · rw [if_neg hge] at hk
    simp at hk

theorem regionBase_insert (s : RegionMeta) (tid : Nat) (m2 : TableMetaInner)
    (hinv : RegionBase s) (hm2 : TableBase m2) :
    RegionBase ⟨alInsert s.table_metas tid m2⟩ := by
  intro tid2 m3 hm3
  by_cases hc : tid2 = tid
  · subst hc
    rw [alGet_insert_self] at hm3
    injection hm3 with hm3
    exact hm3 ▸ hm2
  · rw [alGet_insert_ne _ _ _ _ hc] at hm3
    exact hinv tid2 m3 hm3

theorem regionBase_applyOp (s : RegionMeta) (op : RegistryOp)
    (hinv : RegionBase s)
    (hupd : ∀ tid a b, op = RegistryOp.update tid a b →
      updateGood s tid a b = true) : RegionBase (s.applyOp op) := by
  rcases applyOp_shape s op with h | ⟨tid, _, h⟩ |
    ⟨tid, m, a, b, hop, hm, hab, h⟩ | ⟨tid, m, q, m2, hm, hmk, h⟩
  · rw [h]; exact hinv
  · rw [h]; exact regionBase_insert s tid _ hinv tableBase_default
  · rw [h]
    obtain ⟨hga, hgb, hgn⟩ := updateGood_bounds s tid a b m hm hab
      (hupd tid a b hop)
    exact regionBase_insert s tid _ hinv
      (tableBase_update m a b hga hab hgb hgn (hinv _ m hm))
  · rw [h]
    exact regionBase_insert s tid _ hinv (tableBase_mark tid m q m2 (hinv _ m hm) hmk)

theorem keysNodup_insert (s : RegionMeta) (tid : Nat) (m2 : TableMetaInner)
    (h : KeysNodup s) : KeysNodup ⟨alInsert s.table_metas tid m2⟩ := by
  unfold KeysNodup at h ⊢
  simp only [alInsert, List.map_cons, List.nodup_cons]
  constructor
  · intro hmem
    obtain ⟨p, hp, hpk⟩ := List.mem_map.mp hmem
    have := List.of_mem_filter hp
    simp only [bne_iff_ne, ne_eq, decide_eq_true_eq] at this
    exact this hpk
  · exact h.sublist ((List.filter_sublist _).map Prod.fst)

theorem keysNodup_applyOp (s : RegionMeta) (op : RegistryOp)
    (h : KeysNodup s) : KeysNodup (s.applyOp op) := by
  rcases applyOp_shape s op with hs | ⟨tid, _, hs⟩ | ⟨tid, m, a, b, _, _, _, hs⟩ |
    ⟨tid, m, q, m2, _, _, hs⟩ <;> rw [hs]
  · exact h
  all_goals exact keysNodup_insert s tid _ h

/-- Every write in the trace is wrap-free (marks and prepares are
unrestricted). -/
def preGood (s : RegionMeta) : List RegistryOp → Bool
  | [] => true
  | op :: rest =>
      (match op with
       | RegistryOp.update tid a b => updateGood s tid a b
       | _ => true) && preGood (s.applyOp op) rest

theorem regionBase_applyOps (ops : List RegistryOp) :
    ∀ s : RegionMeta, RegionBase s → preGood s ops = true →
      RegionBase (s.applyOps ops) := by
  induction ops with
  | nil => exact fun _ h _ => h
  | cons op rest ih =>
      intro s hinv hgood
      simp only [preGood, Bool.and_eq_true] at hgood
      exact ih (s.applyOp op)
        (regionBase_applyOp s op hinv
          (by
            intro tid a b hop
            subst hop
            exact hgood.1)) hgood.2

theorem keysNodup_applyOps (ops : List RegistryOp) :
    ∀ s : RegionMeta, KeysNodup s → KeysNodup (s.applyOps ops) := by
  induction ops with
  | nil => exact fun _ h => h
  | cons op rest ih => exact fun s h => ih (s.applyOp op) (keysNodup_applyOp s op h)

theorem regionBase_init : RegionBase RegionMeta.init := by
  intro tid m hm
  simp [RegionMeta.init, alGet_nil] at hm

theorem keysNodup_init : KeysNodup RegionMeta.init := by
  simp [KeysNodup, RegionMeta.init]

theorem alGet_cons {α : Type} (p : Nat × α) (t : List (Nat × α)) (q : Nat) :
    alGet (p :: t) q = if p.1 = q then some p.2 else alGet t q := by
  by_cases h : p.1 = q
  · rw [if_pos h]
    simp only [alGet]
    rw [List.find?_cons_of_pos _ (by simp [h])]
    rfl
  · rw [if_neg h]
    simp only [alGet]
    rw [List.find?_cons_of_neg _ (by simp [h])]

theorem get_meta_data_table_id (tid : Nat) (m : TableMetaInner) :
    (TableMeta.get_meta_data tid m).table_id = tid := by
  unfold TableMeta.get_meta_data
  split_ifs <;> rfl

theorem applySnapshotEntries_spec (l : List (Nat × TableMetaInner)) :
    ∀ b : RegionMetaBuilder,
      (∀ p ∈ l, alGet b.table_metas p.1 = none) →
      (l.map Prod.fst).Nodup →
      ∃ b1 : RegionMetaBuilder,
        applySnapshotEntries b (l.map (fun p => TableMeta.get_meta_data p.1 p.2)) =
          Except.ok b1 ∧
        ∀ tid, alGet b1.table_metas tid =
          match alGet l tid with
          | some m => some (tableMetaInnerOfData (TableMeta.get_meta_data tid m))
          | none => alGet b.table_metas tid := by
  induction l with
  | nil =>
      intro b _ _
      exact ⟨b, rfl, fun tid => by simp [alGet_nil]⟩
  | cons p t ih =>
      intro b hdisj hnodup
      simp only [List.map_cons, List.nodup_cons] at hnodup
      obtain ⟨hnotin, hnodup2⟩ := hnodup
      have hbp : alGet b.table_metas p.1 = none := hdisj p (by simp)
      have hstep : applySnapshotEntries b
          ((p :: t).map (fun q => TableMeta.get_meta_data q.1 q.2)) =
          applySnapshotEntries
            ⟨alInsert b.table_metas p.1
              (tableMetaInnerOfData (TableMeta.get_meta_data p.1 p.2))⟩
            (t.map (fun q => TableMeta.get_meta_data q.1 q.2)) := by
        simp only [List.map_cons, applySnapshotEntries, get_meta_data_table_id, hbp]
      have hdisj2 : ∀ q ∈ t,
          alGet (alInsert b.table_metas p.1
            (tableMetaInnerOfData (TableMeta.get_meta_data p.1 p.2))) q.1 = none := by
        intro q hq
        have hne : q.1 ≠ p.1 := by
          intro hh
          exact hnotin (hh ▸ List.mem_map_of_mem Prod.fst hq)
        rw [alGet_insert_ne _ _ _ _ hne]
        exact hdisj q (by simp [hq])
      obtain ⟨b1, hb1, hb1get⟩ := ih
        ⟨alInsert b.table_metas p.1
          (tableMetaInnerOfData (TableMeta.get_meta_data p.1 p.2))⟩
        hdisj2 hnodup2
      refine ⟨b1, by rw [hstep]; exact hb1, ?_⟩
      intro tid
      rw [hb1get tid, alGet_cons]
      by_cases hc : p.1 = tid
      · subst hc
        have htnone : alGet t p.1 = none := alGet_eq_none_of_not_mem t p.1 hnotin
        rw [htnone, if_pos rfl]
        exact alGet_insert_self _ _ _
      · rw [if_neg hc]
        cases halget : alGet t tid with
        | some m => rfl
        | none =>
            exact alGet_insert_ne _ _ _ _ (fun hh => hc hh.symm)

theorem applyDeltas_range (n : Nat) (tid : Nat) (s0 : Nat) (a0 : Int)
    (bld : RegionMetaBuilder) (m : TableMetaInner)
    (hm : alGet bld.table_metas tid = some m)
    (hnext : m.next_sequence_num = s0)
    (hhwm : m.current_high_watermark ≤ a0)
    (hs0n : s0 + n < 2 ^ 64) (ha0 : I64_MIN ≤ a0) (han : a0 + n ≤ I64_MAX) :
    ∃ (bld2 : RegionMetaBuilder) (m2 : TableMetaInner),
      applyDeltas bld ((List.range n).map
        (fun i => (⟨tid, s0 + i, a0 + i⟩ : RegionMetaDelta))) = Except.ok bld2 ∧
      alGet bld2.table_metas tid = some m2 ∧
      m2.next_sequence_num = s0 + n ∧
      (n = 0 → m2 = m) ∧
      (n ≠ 0 → m2.current_high_watermark = a0 + n) ∧
      m2.latest_marked_deleted = m.latest_marked_deleted ∧
      (∀ k, k ≤ s0 →
        m2.start_sequence_offset_mapping k =
          if k = s0 ∧ n ≠ 0 then some a0
          else m.start_sequence_offset_mapping k) ∧
      (∀ t2, t2 ≠ tid → alGet bld2.table_metas t2 = alGet bld.table_metas t2) := by
  induction n generalizing s0 a0 bld m with
  | zero =>
      refine ⟨bld, m, by simp [applyDeltas], hm, by omega, fun _ => rfl, by simp,
        rfl, ?_, fun _ _ => rfl⟩
      intro k hk
      simp
  | succ n ih =>
      have hseq1 : (s0 + 1) % 2 ^ 64 = s0 + 1 := Nat.mod_eq_of_lt (by omega)
      have hoff1 : wrapI64 (a0 + 1) = a0 + 1 := by
        apply wrapI64_eq_self
        · unfold I64_MIN at ha0 ⊢
          omega
        · unfold I64_MAX at han ⊢
          push_cast at han
          omega
      have happly : bld.apply_region_meta_delta ⟨tid, s0, a0⟩ =
          Except.ok ⟨alInsert bld.table_metas tid
            { m with
                next_sequence_num := s0 + 1,
                current_high_watermark := a0 + 1,
                start_sequence_offset_mapping :=
                  m.start_sequence_offset_mapping.insert s0 a0 }⟩ := by
        unfold RegionMetaBuilder.apply_region_meta_delta
        rw [hm]
        simp only [Option.getD_some]
        rw [hseq1, hoff1]
        rw [if_pos (by omega), if_pos (by omega)]
      have hlist : (List.range (n + 1)).map
          (fun i => (⟨tid, s0 + i, a0 + i⟩ : RegionMetaDelta)) =
          (⟨tid, s0, a0⟩ : RegionMetaDelta) :: (List.range n).map
            (fun i => (⟨tid, s0 + 1 + i, a0 + 1 + i⟩ : RegionMetaDelta)) := by
        rw [List.range_succ_eq_map, List.map_cons, List.map_map]
        refine congrArg₂ List.cons (by simp) ?_
        apply List.map_congr_left
        intro i _
        simp only [Function.comp_apply, Nat.succ_eq_add_one]
        congr 1
        · omega
        · push_cast
          ring
      obtain ⟨bld2, m2, hrun, hm2, hnext2, hz, hnz, hlmd, hmap, hframe⟩ :=
        ih (s0 + 1) (a0 + 1)
          ⟨alInsert bld.table_metas tid
            { m with
                next_sequence_num := s0 + 1,
                current_high_watermark := a0 + 1,
                start_sequence_offset_mapping :=
                  m.start_sequence_offset_mapping.insert s0 a0 }⟩
          { m with
              next_sequence_num := s0 + 1,
              current_high_watermark := a0 + 1,
              start_sequence_offset_mapping :=
                m.start_sequence_offset_mapping.insert s0 a0 }
          (alGet_insert_self _ _ _) rfl (le_refl _) (by omega)
          (by unfold I64_MIN at ha0 ⊢; omega)
          (by unfold I64_MAX at han ⊢; push_cast at han ⊢; omega)
      refine ⟨bld2, m2, ?_, hm2, by omega, fun h => absurd h n.succ_ne_zero,
        ?_, hlmd, ?_, ?_⟩
      · rw [hlist]
        simp only [applyDeltas, happly]
        exact hrun
      · intro _
        by_cases hn : n = 0
        · subst hn
          rw [hz rfl]
          push_cast
          ring
        · rw [hnz hn]
          push_cast
          ring
      · intro k hk
        have hstep := hmap k (by omega)
        rw [if_neg (by omega : ¬ (k = s0 + 1 ∧ n ≠ 0))] at hstep
        rw [hstep]
        dsimp only [OffMap.insert]
        by_cases hks : k = s0
        · rw [if_pos hks, if_pos ⟨hks, n.succ_ne_zero⟩]
        · rw [if_neg hks, if_neg (by simp [hks])]
      · intro t2 ht2
        rw [hframe t2 ht2, alGet_insert_ne _ _ _ _ ht2]

/-- Per-table agreement between a source registry and the recovery
builder: same table set, equal `next_sequence_num`, high watermark and
`latest_marked_deleted`, agreement of the mapping at
`latest_marked_deleted`, and I1 on the source side. -/
def TablesAgree (s : RegionMeta) (b : RegionMetaBuilder) : Prop :=
  ∀ tid : Nat,
    ((alGet s.table_metas tid).isSome ↔ (alGet b.table_metas tid).isSome) ∧
    ∀ m mb : TableMetaInner, alGet s.table_metas tid = some m →
      alGet b.table_metas tid = some mb →
      mb.next_sequence_num = m.next_sequence_num ∧
      mb.current_high_watermark = m.current_high_watermark ∧
      mb.latest_marked_deleted = m.latest_marked_deleted ∧
      m.latest_marked_deleted ≤ m.next_sequence_num ∧
      mb.start_sequence_offset_mapping m.latest_marked_deleted =
        m.start_sequence_offset_mapping m.latest_marked_deleted

theorem get_meta_data_agree (tid : Nat) (m mb : TableMetaInner)
    (h1 : mb.next_sequence_num = m.next_sequence_num)
    (h2 : mb.current_high_watermark = m.current_high_watermark)
    (h3 : mb.latest_marked_deleted = m.latest_marked_deleted)
    (h5 : mb.start_sequence_offset_mapping m.latest_marked_deleted =
      m.start_sequence_offset_mapping m.latest_marked_deleted) :
    (TableMeta.get_meta_data tid mb).next_sequence_num =
      (TableMeta.get_meta_data tid m).next_sequence_num ∧
    (TableMeta.get_meta_data tid mb).current_high_watermark =
      (TableMeta.get_meta_data tid m).current_high_watermark ∧
    (TableMeta.get_meta_data tid mb).safe_delete_offset =
      (TableMeta.get_meta_data tid m).safe_delete_offset := by
  unfold TableMeta.get_meta_data
  by_cases heq : m.next_sequence_num = m.latest_marked_deleted
  · rw [if_pos heq, if_pos (by rw [h1, h3]; exact heq)]
    exact ⟨h1, h2, rfl⟩
  · rw [if_neg heq, if_neg (by rw [h1, h3]; exact heq)]
    refine ⟨h1, h2, ?_⟩
    dsimp only
    rw [h3, h5]

theorem agree_of_snapshot (S : RegionMeta) (hbase : RegionBase S)
    (hnodup : KeysNodup S) :
    ∃ b1 : RegionMetaBuilder,
      RegionMetaBuilder.init.apply_region_meta_snapshot S.make_snapshot =
        Except.ok b1 ∧
      TablesAgree S b1 := by
  obtain ⟨b1, hb1, hget⟩ := applySnapshotEntries_spec S.table_metas
    RegionMetaBuilder.init
    (fun p _ => by simp [RegionMetaBuilder.init, alGet_nil]) hnodup
  refine ⟨b1, hb1, ?_⟩
  intro tid
  have h := hget tid
  constructor
  · cases halget : alGet S.table_metas tid with
    | some m =>
        rw [halget] at h
        dsimp only at h
        simp [h]
    | none =>
        rw [halget] at h
        dsimp only at h
        simp [h, RegionMetaBuilder.init, alGet_nil]
  · intro m mb hm hmb
    rw [hm] at h
    dsimp only at h
    rw [h] at hmb
    injection hmb with hmb
    obtain ⟨hI1, hbound⟩ := hbase tid m hm
    by_cases heq : m.next_sequence_num = m.latest_marked_deleted
    · have hgmd : TableMeta.get_meta_data tid m =
          { table_id := tid, next_sequence_num := m.next_sequence_num,
            latest_marked_deleted := m.latest_marked_deleted,
            current_high_watermark := m.current_high_watermark,
            safe_delete_offset := none } := by
        unfold TableMeta.get_meta_data
        rw [if_pos heq]
      rw [hgmd] at hmb
      subst hmb
      refine ⟨rfl, rfl, rfl, hI1, ?_⟩
      dsimp only [tableMetaInnerOfData]
      cases hmm : m.start_sequence_offset_mapping m.latest_marked_deleted with
      | none => rfl
      | some v =>
          exfalso
          have := hbound m.latest_marked_deleted (by rw [hmm]; rfl)
          omega
    · have hgmd : TableMeta.get_meta_data tid m =
          { table_id := tid, next_sequence_num := m.next_sequence_num,
            latest_marked_deleted := m.latest_marked_deleted,
            current_high_watermark := m.current_high_watermark,
            safe_delete_offset :=
              m.start_sequence_offset_mapping m.latest_marked_deleted } := by
        unfold TableMeta.get_meta_data
        rw [if_neg heq]
      rw [hgmd] at hmb
      subst hmb
      refine ⟨rfl, rfl, rfl, hI1, ?_⟩
      dsimp only [tableMetaInnerOfData]
      cases hmm : m.start_sequence_offset_mapping m.latest_marked_deleted with
      | none => rfl
      | some v =>
          dsimp only [OffMap.insert]
          rw [if_pos rfl]

theorem recovery_loop (suf : List RegistryOp) :
    ∀ (s : RegionMeta) (bld : RegionMetaBuilder),
      TablesAgree s bld → suffixGood s suf = true →
      ∃ bld2 : RegionMetaBuilder,
        applyDeltas bld (deltasOfOps s suf) = Except.ok bld2 ∧
        TablesAgree (s.applyOps suf) bld2 := by
  induction suf with
  | nil =>
      intro s bld hagree _
      exact ⟨bld, rfl, hagree⟩
  | cons op rest ih =>
      intro s bld hagree hgood
      cases op with
      | prepare tid => simp [suffixGood] at hgood
      | mark tid q => simp [suffixGood] at hgood
      | update tid a b =>
          simp only [suffixGood, Bool.and_eq_true] at hgood
          obtain ⟨hcond, hrest⟩ := hgood
          cases halget : alGet s.table_metas tid with
          | none =>
              rw [halget] at hcond
              simp at hcond
          | some m =>
              rw [halget] at hcond
              simp only [Bool.and_eq_true, decide_eq_true_eq] at hcond
              obtain ⟨⟨⟨⟨hab, ha⟩, hb⟩, hhwm⟩, hnof⟩ := hcond
              obtain ⟨hiff, hrel⟩ := hagree tid
              have hbsome : (alGet bld.table_metas tid).isSome := by
                rw [← hiff, halget]
                rfl
              obtain ⟨mb, hmb⟩ := Option.isSome_iff_exists.mp hbsome
              obtain ⟨hbnext, hbhwm, hblmd, hI1, hbmap⟩ := hrel m mb halget hmb
              have hdeltas : deltasOfOp s (RegistryOp.update tid a b) =
                  (List.range (b - a + 1).toNat).map
                    (fun i => ⟨tid, m.next_sequence_num + i, a + i⟩) := by
                simp [deltasOfOp, halget, hab]
              obtain ⟨bld1, m1, hrun1, hm1, hnext1, hz1, hnz1, hlmd1, hmap1, hframe1⟩ :=
                applyDeltas_range (b - a + 1).toNat tid m.next_sequence_num a bld mb
                  hmb hbnext (by rw [hbhwm]; exact hhwm) hnof ha
                  (by
                    unfold I64_MAX at hb ⊢
                    push_cast [Int.toNat_of_nonneg
                      (by omega : (0 : Int) ≤ b - a + 1)]
                    omega)
              have hn1 : (b - a + 1).toNat ≠ 0 := by omega
              have huw := update_after_write_no_wrap m a b ha hab hb hnof
              have hsrc : s.applyOp (RegistryOp.update tid a b) =
                  ⟨alInsert s.table_metas tid (TableMeta.update_after_write m a b)⟩ := by
                simp [RegionMeta.applyOp, RegionMeta.update_after_table_write,
                  if_pos hab, halget]
              have hagree1 : TablesAgree (s.applyOp (RegistryOp.update tid a b)) bld1 := by
                rw [hsrc]
                intro tid2
                by_cases hc : tid2 = tid
                · subst hc
                  constructor
                  · simp [alGet_insert_self, hm1]
                  · intro m4 mb4 hm4 hmb4
                    rw [alGet_insert_self] at hm4
                    rw [hm1] at hmb4
                    injection hm4 with hm4
                    injection hmb4 with hmb4
                    subst hm4
                    subst hmb4
                    refine ⟨?_, ?_, ?_, ?_, ?_⟩
                    · rw [huw]
                      exact hnext1
                    · rw [hnz1 hn1, huw]
                      dsimp only
                      push_cast [Int.toNat_of_nonneg
                        (by omega : (0 : Int) ≤ b - a + 1)]
                      ring
                    · rw [hlmd1, hblmd, huw]
                    · rw [huw]
                      dsimp only
                      omega
                    · have hlmd_eq :
                          (TableMeta.update_after_write m a b).latest_marked_deleted =
                            m.latest_marked_deleted := by
                        rw [huw]
                      rw [hlmd_eq]
                      have hstep := hmap1 m.latest_marked_deleted hI1
                      rw [hstep]
                      rw [huw]
                      dsimp only [OffMap.insert]
                      by_cases hks : m.latest_marked_deleted = m.next_sequence_num
                      · rw [if_pos ⟨hks, hn1⟩, if_pos hks]
                      · rw [if_neg (by simp [hks]), if_neg hks]
                        exact hbmap
                · constructor
                  · rw [alGet_insert_ne _ _ _ _ hc, hframe1 tid2 hc]
                    exact (hagree tid2).1
                  · intro m4 mb4 hm4 hmb4
                    rw [alGet_insert_ne _ _ _ _ hc] at hm4
                    rw [hframe1 tid2 hc] at hmb4
                    exact (hagree tid2).2 m4 mb4 hm4 hmb4
              obtain ⟨bld2, hrun2, hagree2⟩ :=
                ih (s.applyOp (RegistryOp.update tid a b)) bld1 hagree1 hrest
              refine ⟨bld2, ?_, ?_⟩
              · simp only [deltasOfOps]
                rw [applyDeltas_append, hdeltas, hrun1]
                exact hrun2
              · exact hagree2

/-- C1 counterexample: take the operation sequence `prepare(0)`,
`update(0, [20, 29])`, `update(0, [42, 51])`, `mark(0, 10)` and snapshot
after the first three operations.  The mark emits no delta, so replay
rebuilds the snapshot state: the rebuilt registry reports safe delete
offset `20` while the source registry, after the whole sequence, reports
`42`. -/
theorem c1_snapshot_delta_recovery_counterexample :
    deltasOfOps (RegionMeta.applyOps RegionMeta.init
        [RegistryOp.prepare 0, RegistryOp.update 0 20 29,
         RegistryOp.update 0 42 51])
      [RegistryOp.mark 0 10] = [] ∧
    RegionMetaBuilder.init.apply_region_meta_snapshot
        ((RegionMeta.applyOps RegionMeta.init
          [RegistryOp.prepare 0, RegistryOp.update 0 20 29,
           RegistryOp.update 0 42 51]).make_snapshot) =
      Except.ok ⟨[(0, tableMetaInnerOfData ⟨0, 20, 0, 52, some 20⟩)]⟩ ∧
    Except.map TableMetaData.safe_delete_offset
        ((RegionMetaBuilder.build
          ⟨[(0, tableMetaInnerOfData ⟨0, 20, 0, 52, some 20⟩)]⟩).get_table_meta_data
          0) = Except.ok (some 20) ∧
    Except.map TableMetaData.safe_delete_offset
        ((RegionMeta.applyOps (RegionMeta.applyOps RegionMeta.init
            [RegistryOp.prepare 0, RegistryOp.update 0 20 29,
             RegistryOp.update 0 42 51])
          [RegistryOp.mark 0 10]).get_table_meta_data 0) =
      Except.ok (some 42) ∧
    (some (20 : Int)) ≠ some 42 := by
  refine ⟨rfl, rfl, rfl, rfl, by decide⟩

/-- C1 amended: for every source registry reachable by a sequence of
operations, snapshotting it and then replaying, in log order, the deltas
of a suffix consisting of successful `update_after_table_write` operations
(one delta per written record, offsets continuing at or past each table's
high watermark) rebuilds, after `build()`, a registry with the same table
set whose per-table `next_sequence_num`, `current_high_watermark` and
`safe_delete_offset` equal those of the source registry after the whole
sequence.  The writes of the whole sequence are required to be wrap-free
(i64 offsets strictly below `i64::MAX` and u64 sequence arithmetic below
`2^64`, the regime in which the source's wrapping `+=` behaves like plain
addition); post-snapshot marks are excluded: they emit no delta and break
the property (see the counterexample). -/
theorem c1_snapshot_delta_recovery_amended (pre suf : List RegistryOp)
    (hpre : preGood RegionMeta.init pre = true)
    (hgood : suffixGood (RegionMeta.applyOps RegionMeta.init pre) suf = true) :
    ∃ b1 b2 : RegionMetaBuilder,
      RegionMetaBuilder.init.apply_region_meta_snapshot
        ((RegionMeta.applyOps RegionMeta.init pre).make_snapshot) =
        Except.ok b1 ∧
      applyDeltas b1 (deltasOfOps (RegionMeta.applyOps RegionMeta.init pre) suf) =
        Except.ok b2 ∧
      ∀ tid : Nat,
        ((alGet (RegionMetaBuilder.build b2).table_metas tid).isSome ↔
          (alGet ((RegionMeta.applyOps RegionMeta.init pre).applyOps
            suf).table_metas tid).isSome) ∧
        ∀ d1 d2 : TableMetaData,
          (RegionMetaBuilder.build b2).get_table_meta_data tid = Except.ok d1 →
          ((RegionMeta.applyOps RegionMeta.init pre).applyOps
            suf).get_table_meta_data tid = Except.ok d2 →
          d1.next_sequence_num = d2.next_sequence_num ∧
          d1.current_high_watermark = d2.current_high_watermark ∧
          d1.safe_delete_offset = d2.safe_delete_offset := by
  obtain ⟨b1, hb1, hagree0⟩ := agree_of_snapshot
    (RegionMeta.applyOps RegionMeta.init pre)
    (regionBase_applyOps pre RegionMeta.init regionBase_init hpre)
    (keysNodup_applyOps pre RegionMeta.init keysNodup_init)
  obtain ⟨b2, hrun, hagree⟩ := recovery_loop suf
    (RegionMeta.applyOps RegionMeta.init pre) b1 hagree0 hgood
  refine ⟨b1, b2, hb1, hrun, ?_⟩
  intro tid
  obtain ⟨hiff, hrel⟩ := hagree tid
  constructor
  · exact hiff.symm
  · intro d1 d2 hd1 hd2
    unfold RegionMeta.get_table_meta_data at hd1 hd2
    cases halget1 : alGet (RegionMetaBuilder.build b2).table_metas tid with
    | none =>
        rw [halget1] at hd1
        exact absurd hd1 (by simp)
    | some mb =>
        rw [halget1] at hd1
        cases halget2 : alGet ((RegionMeta.applyOps RegionMeta.init pre).applyOps
            suf).table_metas tid with
        | none =>
            rw [halget2] at hd2
            exact absurd hd2 (by simp)
        | some m =>
            rw [halget2] at hd2
            injection hd1 with hd1
            injection hd2 with hd2
            subst hd1
            subst hd2
            obtain ⟨h1, h2, h3, _, h5⟩ := hrel m mb halget2 halget1
            exact get_meta_data_agree tid m mb h1 h2 h3 h5

/-- C1 witness: one table, one pre-snapshot write, one post-snapshot
write whose offsets continue at the high watermark. -/
theorem c1_snapshot_delta_recovery_amended_witness :
    ∃ b1 b2 : RegionMetaBuilder,
      RegionMetaBuilder.init.apply_region_meta_snapshot
        ((RegionMeta.applyOps RegionMeta.init
          [RegistryOp.prepare 0, RegistryOp.update 0 20 29]).make_snapshot) =
        Except.ok b1 ∧
      applyDeltas b1 (deltasOfOps (RegionMeta.applyOps RegionMeta.init
        [RegistryOp.prepare 0, RegistryOp.update 0 20 29])
        [RegistryOp.update 0 30 39]) = Except.ok b2 ∧
      ∀ tid : Nat,
        ((alGet (RegionMetaBuilder.build b2).table_metas tid).isSome ↔
          (alGet ((RegionMeta.applyOps RegionMeta.init
            [RegistryOp.prepare 0, RegistryOp.update 0 20 29]).applyOps
            [RegistryOp.update 0 30 39]).table_metas tid).isSome) ∧
        ∀ d1 d2 : TableMetaData,
          (RegionMetaBuilder.build b2).get_table_meta_data tid = Except.ok d1 →
          ((RegionMeta.applyOps RegionMeta.init
            [RegistryOp.prepare 0, RegistryOp.update 0 20 29]).applyOps
            [RegistryOp.update 0 30 39]).get_table_meta_data tid = Except.ok d2 →
          d1.next_sequence_num = d2.next_sequence_num ∧
          d1.current_high_watermark = d2.current_high_watermark ∧
          d1.safe_delete_offset = d2.safe_delete_offset :=
  c1_snapshot_delta_recovery_amended
    [RegistryOp.prepare 0, RegistryOp.update 0 20 29]
    [RegistryOp.update 0 30 39] rfl rfl
